import Mathlib

/-!
# The SC2 container codec of `img2sx/pkg/sc2/file.go`

A shallow embedding of `decode`, `Encoder.Encode`, `acquireBytes` and `writeNames`.

* A Go `[]uint8` is a `ByteSlice`: the elements up to its length and the rest of the
  backing array up to its capacity. Indexing is checked against the length, slicing
  against the capacity, as the Go runtime does.
* A run of the code ends in a value, in a returned `error`, or in a runtime panic.
* The `io.Writer` of `Encode` is an in-memory buffer whose `Write` appends and never fails.
-/

namespace Sc2

/-- A Go `uint8`. -/
abbrev Byte := Fin 256

/-- How a run ends when it does not return a value: one of the two errors that `decode`
builds with `fmt.Errorf`, or a runtime panic (index or slice bounds out of range). -/
inductive Fault where
  | fileTooShort (len min : Nat)
  | invalidSignature (got : List Byte)
  | panic
deriving DecidableEq, Repr

/-- Whether the fault is a returned `error` value (as opposed to a runtime panic). -/
def Fault.isError : Fault → Bool
  | .fileTooShort _ _ => true
  | .invalidSignature _ => true
  | .panic => false

/-- Whether the fault is the "file is too short" error. -/
def Fault.isTooShort : Fault → Bool
  | .fileTooShort _ _ => true
  | _ => false

/-- Whether the fault is the "invalid signature" error. -/
def Fault.isInvalidSignature : Fault → Bool
  | .invalidSignature _ => true
  | _ => false

/-! ## Go slices of bytes -/

/-- A Go `[]uint8`: `elems` are the `len` visible elements, `spare` the rest of the backing
array up to the capacity. -/
structure ByteSlice where
  elems : List Byte
  spare : List Byte
deriving DecidableEq, Repr

namespace ByteSlice

/-- Go `len(s)`. -/
def len (s : ByteSlice) : Nat := s.elems.length

/-- Go `cap(s)`. -/
def cap (s : ByteSlice) : Nat := s.elems.length + s.spare.length

/-- Go `s[i]`: panics unless `i < len(s)`. -/
def index (s : ByteSlice) (i : Nat) : Except Fault Byte :=
  match s.elems[i]? with
  | some b => .ok b
  | none => .error .panic

/-- Go `s[lo:hi]`: panics unless `lo <= hi <= cap(s)`. -/
def slice (s : ByteSlice) (lo hi : Nat) : Except Fault ByteSlice :=
  if lo ≤ hi ∧ hi ≤ s.cap then
    .ok ⟨((s.elems ++ s.spare).drop lo).take (hi - lo), (s.elems ++ s.spare).drop hi⟩
  else .error .panic

/-- Go `s[lo:]`, which is `s[lo:len(s)]`. -/
def sliceFrom (s : ByteSlice) (lo : Nat) : Except Fault ByteSlice := s.slice lo s.len

/-- Go `s[:hi]`, which is `s[0:hi]`. -/
def sliceTo (s : ByteSlice) (hi : Nat) : Except Fault ByteSlice := s.slice 0 hi

end ByteSlice

/-- Go `bytes[i] = v` on a slice seen through its elements: panics unless `i < len(bytes)`. -/
def setIndex (bytes : List Byte) (i : Nat) (v : Byte) : Except Fault (List Byte) :=
  if i < bytes.length then .ok (bytes.set i v) else .error .panic

/-! ## Package `screen2` and the image type -/

namespace screen2

/-- Modelled from the spec: the constant `screen2.TilePatterns` (`patterns_per_tile`, 8),
declared outside `file.go`. -/
def TilePatterns : Nat := 8

/-- Modelled from the spec: the constant `screen2.TableTiles` (`tiles_per_bank`, 256),
declared outside `file.go`. -/
def TableTiles : Nat := 256

/-- Modelled from the spec: the constant `screen2.AddrSpriteAttrs`, declared outside
`file.go`; the reserved region starts here, right after pattern tables (6144 bytes) and
name tables (768 bytes). -/
def AddrSpriteAttrs : Nat := 6912

/-- Modelled from the spec: the constant `screen2.AddrColorTable1`, declared outside
`file.go`; `AddrColorTable1 - AddrSpriteAttrs` is `reserved_region_size`, 1280, the value
for which `7 + 6144 + 768 + reserved_region_size + 6144` is `minFileLength`. -/
def AddrColorTable1 : Nat := 8192

/-- Modelled from the spec: the type `screen2.Pattern`, declared outside `file.go`: the pair
of a `Bitmap` byte and a `Color` byte. -/
structure Pattern where
  Bitmap : Byte
  Color : Byte
deriving DecidableEq, Repr

/-- Modelled from the spec: the type `screen2.Tile`, declared outside `file.go`: exactly 8
patterns, fixed size (`decode` builds it as `screen2.Tile{}` and assigns `tl[p]`, so it is
the array `[TilePatterns]Pattern`). -/
abbrev Tile := Fin 8 → Pattern

end screen2

open screen2

/-- Modelled from the spec: the package constant `tablePatterns`, declared outside
`file.go`: the size of one bank's block, `tiles_per_bank * patterns_per_tile`. -/
def tablePatterns : Nat := TableTiles * TilePatterns

/-- Modelled from the spec: the type `sc2.Image`, declared outside `file.go`: `Table` is 3
banks, each a sequence of tiles, and `Names` is 3 byte sequences (`decode` ranges over
`ts.Table` of the zero value and assigns `ts.Names[0..2]`, so both are arrays of 3 slices).
The slices are kept as the lists of their elements. -/
structure Image where
  Table : Fin 3 → List Tile
  Names : Fin 3 → List Byte

/-- The Go zero value `screen2.Tile{}`. -/
def zeroTile : Tile := fun _ => ⟨0, 0⟩

/-- The Go zero value `Image{}`. -/
def zeroImage : Image := ⟨fun _ => [], fun _ => []⟩

/-- Go `ConvertOpt`. -/
inductive ConvertOpt where
  | Crop
  | Stretch
  | KeepAspect
deriving DecidableEq, Repr

/-- Go `var signature`. -/
def signature : List Byte := [0xfe, 0x00, 0x00, 0xff, 0x37, 0x00, 0x00]

/-- Go `const minFileLength`. -/
def minFileLength : Nat := 14343

/-! ## Loops -/

/-- Go `for k, x := range xs { body }` over a state `s`, the index starting at `k`; a fault
in the body ends the loop. Counting loops `for k := 0; k < n; k++` range over
`List.range n` or `List.finRange n`. -/
def rangeLoop {α σ : Type} (body : Nat → α → σ → Except Fault σ) :
    Nat → List α → σ → Except Fault σ
  | _, [], s => .ok s
  | k, x :: xs, s =>
    match body k x s with
    | .ok s' => rangeLoop body (k + 1) xs s'
    | .error e => .error e

/-! ## `decode` -/

/-- Go `tl[p].Bitmap = b`. -/
def setBitmap (tl : Tile) (p : Fin 8) (b : Byte) : Tile :=
  Function.update tl p { tl p with Bitmap := b }

/-- Go `tl[p].Color = b`. -/
def setColor (tl : Tile) (p : Fin 8) (b : Byte) : Tile :=
  Function.update tl p { tl p with Color := b }

/-- Go `ts.Table[t] = append(ts.Table[t], tl)`. -/
def appendTile (ts : Image) (t : Fin 3) (tl : Tile) : Image :=
  { ts with Table := Function.update ts.Table t (ts.Table t ++ [tl]) }

/-- Go `ts.Table[t][tl][p].Color = b`: panics unless `tl < len(ts.Table[t])`. -/
def setTableColor (ts : Image) (t : Fin 3) (tl : Nat) (p : Fin 8) (b : Byte) :
    Except Fault Image :=
  match (ts.Table t)[tl]? with
  | some tile =>
    .ok { ts with Table := Function.update ts.Table t ((ts.Table t).set tl (setColor tile p b)) }
  | none => .error .panic

/-- Lines 47-51 of `decode`: `tl := screen2.Tile{}` and the loop over `p` that reads one
tile's bitmaps at the cursor `i`; returns the tile and the new cursor. -/
def readTile (content : ByteSlice) (i : Nat) : Except Fault (Tile × Nat) :=
  rangeLoop (fun _ (p : Fin 8) (ti : Tile × Nat) =>
    match content.index ti.2 with
    | .ok b => .ok (setBitmap ti.1 p b, ti.2 + 1)
    | .error e => .error e) 0 (List.finRange 8) (zeroTile, i)

/-- Lines 46-53 of `decode`: the loop over `tileNum` for bank `t`. The state is `(ts, i)`. -/
def readBank (content : ByteSlice) (t : Fin 3) (st : Image × Nat) : Except Fault (Image × Nat) :=
  rangeLoop (fun _ (_ : Nat) (st : Image × Nat) =>
    match readTile content st.2 with
    | .ok ti => .ok (appendTile st.1 t ti.1, ti.2)
    | .error e => .error e) 0 (List.range 256) st

/-- Lines 45-54 of `decode`: the pattern generator tables, `for t := range ts.Table`. -/
def readBitmaps (content : ByteSlice) (st : Image × Nat) : Except Fault (Image × Nat) :=
  rangeLoop (fun _ (t : Fin 3) (st : Image × Nat) => readBank content t st)
    0 (List.finRange 3) st

/-- Lines 68-71 of `decode`: the loop over `p` that reads the colors of tile `tl` of bank
`t`. The state is `(ts, i)`. -/
def colorTile (content : ByteSlice) (t : Fin 3) (tl : Nat) (st : Image × Nat) :
    Except Fault (Image × Nat) :=
  rangeLoop (fun _ (p : Fin 8) (st : Image × Nat) =>
    match content.index st.2 with
    | .ok b =>
      match setTableColor st.1 t tl p b with
      | .ok ts => .ok (ts, st.2 + 1)
      | .error e => .error e
    | .error e => .error e) 0 (List.finRange 8) st

/-- Lines 67-72 of `decode`: `for tl := range ts.Table[t]`. -/
def colorBank (content : ByteSlice) (t : Fin 3) (st : Image × Nat) : Except Fault (Image × Nat) :=
  rangeLoop (fun tl (_ : Tile) (st : Image × Nat) => colorTile content t tl st)
    0 (st.1.Table t) st

/-- Lines 66-73 of `decode`: the color tables, `for t := range ts.Table`. -/
def readColors (content : ByteSlice) (st : Image × Nat) : Except Fault (Image × Nat) :=
  rangeLoop (fun _ (t : Fin 3) (st : Image × Nat) => colorBank content t st)
    0 (List.finRange 3) st

/-- Go `decode`, on the slice `content` that `ioutil.ReadAll` returned. -/
def decode (content : ByteSlice) : Except Fault Image :=
  if content.len > minFileLength then
    .error (.fileTooShort content.len minFileLength)
  else do
    let head ← content.sliceTo signature.length
    if signature ≠ head.elems then
      .error (.invalidSignature head.elems)
    else do
      let content ← content.sliceFrom signature.length
      -- read pattern generator tables
      let (ts, i) ← readBitmaps content (zeroImage, 0)
      let content ← content.sliceFrom i
      -- read pattern name tables
      let n0 ← content.slice 0 256
      let n1 ← content.slice 256 512
      let n2 ← content.slice 512 768
      let ts : Image := { ts with Names := ![n0.elems, n1.elems, n2.elems] }
      let content ← content.sliceFrom 768
      -- discard sprites and palette
      let content ← content.sliceFrom (AddrColorTable1 - AddrSpriteAttrs)
      -- read color tables
      let (ts, _) ← readColors content (ts, 0)
      pure ts

/-! ## `Encode` -/

/-- Lines 143-145 of `acquireBytes`: `for pn, pattern := range tile`, storing the tile
`tile` of index `tn`. -/
def storeTile (getter : Pattern → Byte) (tn : Nat) (tile : Tile) (bytes : List Byte) :
    Except Fault (List Byte) :=
  rangeLoop (fun pn (pattern : Pattern) (bytes : List Byte) =>
    setIndex bytes (tn * TilePatterns + pn) (getter pattern)) 0 (List.ofFn tile) bytes

/-- Go `acquireBytes`. -/
def acquireBytes (tiles : List Tile) (fillZeroes : Bool) (getter : Pattern → Byte) :
    Except Fault (List Byte) := do
  let bytes := List.replicate tablePatterns (0 : Byte)
  let tiles := if tiles.length > TableTiles then tiles.take TableTiles else tiles
  let bytes ← rangeLoop (storeTile getter) 0 tiles bytes
  if fillZeroes then
    pure bytes
  else
    pure (bytes.take (tiles.length * TilePatterns))

/-- Go `writeNames`; `out` is what the writer holds, the result what it holds afterwards. -/
def writeNames (out : List Byte) (names : List Byte) (fillZeroes : Bool) : List Byte :=
  let out := out ++ names
  if fillZeroes ∧ names.length < TableTiles then
    out ++ List.replicate (TableTiles - names.length) 0
  else out

/-- Go `Encoder`. -/
structure Encoder where
  Opt : ConvertOpt

/-- Go `(*Encoder).Encode` on a value that is a `*Image` (the type assertion succeeds, so
`convert` is not called), writing to an empty in-memory buffer; the result is what the
buffer holds at the end. -/
def Encoder.Encode (_e : Encoder) (s : Image) : Except Fault (List Byte) := do
  -- Write file signature
  let out := signature
  -- Write pattern generator tables
  let bget := fun (p : Pattern) => p.Bitmap
  let out ← rangeLoop (fun _ (table : List Tile) (out : List Byte) => do
      let bs ← acquireBytes table true bget
      pure (out ++ bs)) 0 (List.ofFn s.Table) out
  -- Write pattern name tables
  let out ← rangeLoop (fun _ (names : List Byte) (out : List Byte) =>
      .ok (writeNames out names true)) 0 (List.ofFn s.Names) out
  -- Fill sprite attributes & palette with zeroes
  let out := out ++ List.replicate (AddrColorTable1 - AddrSpriteAttrs) 0
  -- Fill color tables
  let cget := fun (p : Pattern) => p.Color
  let out ← rangeLoop (fun _ (table : List Tile) (out : List Byte) => do
      let bs ← acquireBytes table true cget
      pure (out ++ bs)) 0 (List.ofFn s.Table) out
  pure out

/-- Go `Encode`: an `Encoder` with `Opt: KeepAspect`. -/
def Encode (s : Image) : Except Fault (List Byte) :=
  Encoder.Encode ⟨ConvertOpt.KeepAspect⟩ s

/-! ## What the passes of `decode` compute, as functions of the bytes -/

/-- The tile whose bitmaps are the 8 bytes of `l` from `base` on, colors still zero. -/
def bitmapTile (l : List Byte) (base : Nat) : Tile :=
  fun p => ⟨l.getD (base + p.val) 0, 0⟩

/-- The tiles of one bank after the bitmap pass, read from `l` at `base`. -/
def bitmapBank (l : List Byte) (base : Nat) : List Tile :=
  (List.range 256).map (fun k => bitmapTile l (base + 8 * k))



/-- The tile `tile` with its colors replaced by the 8 bytes of `l` from `base` on. -/
def recolor (l : List Byte) (base : Nat) (tile : Tile) : Tile :=
  fun p => ⟨(tile p).Bitmap, l.getD (base + p.val) 0⟩

/-- The tiles of one bank after the color pass, the colors read from `l` at `base`. -/
def recolorBank (l : List Byte) (base : Nat) (tiles : List Tile) : List Tile :=
  tiles.mapIdx (fun k tile => recolor l (base + 8 * k) tile)



/-- The image that `decode` builds from the bytes `c` of a container it accepts. -/
def decoded (c : List Byte) : Image :=
  ⟨fun b => recolorBank (c.drop 8199) (2048 * b.val) (bitmapBank (c.drop 7) (2048 * b.val)),
   ![(c.drop 6151).take 256, (c.drop 6407).take 256, (c.drop 6663).take 256]⟩



/-! ## What `Encode` writes, as functions of the image -/

/-- The byte that slot `k` of a bank's block holds: the `getter` byte of pattern `k % 8` of
tile `k / 8`, or zero past the last tile. -/
def tileByte (getter : Pattern → Byte) (tiles : List Tile) (k : Nat) : Byte :=
  match tiles[k / 8]? with
  | some tile => getter (tile ⟨k % 8, Nat.mod_lt k (by decide)⟩)
  | none => 0

/-- One bank's block of `tablePatterns` bytes. -/
def blockOf (getter : Pattern → Byte) (tiles : List Tile) : List Byte :=
  (List.range 2048).map (tileByte getter (tiles.take 256))

/-- One bank's name data as `writeNames` writes it. -/
def namesOf (names : List Byte) : List Byte :=
  names ++ List.replicate (256 - names.length) 0

/-- The bytes that `Encode` writes for the image `x`. -/
def encoded (x : Image) : List Byte :=
  signature ++ (blockOf Pattern.Bitmap (x.Table 0) ++ (blockOf Pattern.Bitmap (x.Table 1) ++
    (blockOf Pattern.Bitmap (x.Table 2) ++ (namesOf (x.Names 0) ++ (namesOf (x.Names 1) ++
    (namesOf (x.Names 2) ++ (List.replicate 1280 0 ++ (blockOf Pattern.Color (x.Table 0) ++
    (blockOf Pattern.Color (x.Table 1) ++ blockOf Pattern.Color (x.Table 2))))))))))



/-- The offset at which `Encode` starts to write the color tables: after the signature, the
three pattern blocks, the name data of the three banks and the reserved bytes. -/
def colorStart (x : Image) : Nat :=
  7 + 6144 + ((namesOf (x.Names 0)).length + (namesOf (x.Names 1)).length +
    (namesOf (x.Names 2)).length) + 1280

/-! ## Sample values -/

/-- A tile whose 16 bytes are pairwise different. -/
def sampleTile : Tile := fun p => ⟨⟨p.val + 16, by omega⟩, ⟨p.val + 32, by omega⟩⟩

/-- An image with 256 tiles and 256 names in every bank. -/
def fullImage : Image :=
  ⟨fun _ => List.replicate 256 sampleTile, fun _ => List.replicate 256 9⟩

/-- An image with an empty bank, a bank of 10 tiles and a bank of 300 tiles, and with name
tables of 0, 100 and 256 entries. -/
def sparseImage : Image :=
  ⟨![[], List.replicate 10 sampleTile, List.replicate 300 sampleTile],
   ![[], List.replicate 100 1, List.replicate 256 2]⟩

/-- A container of `minFileLength` bytes: the signature, then 14336 bytes of value 7. -/
def sampleContainer : ByteSlice := ⟨signature ++ List.replicate 14336 7, []⟩



/-- The image `x` with the tiles of bank `b` cut to the first 256. -/
def truncateBank (x : Image) (b : Fin 3) : Image :=
  ⟨Function.update x.Table b ((x.Table b).take 256), x.Names⟩



/-- The offset at which `Encode` starts to write the name data of bank `b`: after the
signature, the three pattern blocks and the name data of the banks before `b`. -/
def namesStart (x : Image) (b : Fin 3) : Nat :=
  7 + 6144 + ((if 0 < b.val then (namesOf (x.Names 0)).length else 0) +
    (if 1 < b.val then (namesOf (x.Names 1)).length else 0))

/-- The normal form of an image, in the words of the specification: each bank is cut to its
first 256 tiles and then padded to exactly 256 tiles with tiles whose 8 patterns have
`Bitmap = 0` and `Color = 0`, and each name table is padded with zero bytes to 256
entries. -/
def norm (x : Image) : Image :=
  ⟨fun b => (x.Table b).take 256 ++
      List.replicate (256 - ((x.Table b).take 256).length) zeroTile,
   fun b => x.Names b ++ List.replicate (256 - (x.Names b).length) 0⟩

/-- An image without tiles whose name tables have 300, 0 and 256 entries. -/
def longNamesImage : Image :=
  ⟨fun _ => [], ![List.replicate 300 4, [], List.replicate 256 1]⟩



/-- A container of `minFileLength` bytes: the signature, then 14336 bytes of value 7; the
byte at offset 6919, the first of the reserved region, is written apart. -/
def containerA : List Byte :=
  (signature ++ List.replicate 6912 7) ++ (7 :: List.replicate 7423 7)

/-- The container `containerA` with the byte at offset 6919 changed to 9. -/
def containerB : List Byte :=
  (signature ++ List.replicate 6912 7) ++ (9 :: List.replicate 7423 7)

/-! # Theorems -/

/-! ## Loops in closed form -/

theorem rangeLoop_closed {α σ : Type} (body : Nat → α → σ → Except Fault σ) (xs : List α) :
    ∀ (k0 : Nat) (F : Nat → σ),
      (∀ j (hj : j < xs.length), body (k0 + j) (xs[j]) (F j) = .ok (F (j + 1))) →
      rangeLoop body k0 xs (F 0) = .ok (F xs.length) := by
  induction xs with
  | nil => intro k0 F _; rfl
  | cons x xs ih =>
    intro k0 F h
    have h0 := h 0 (by simp)
    simp only [Nat.add_zero, List.getElem_cons_zero] at h0
    simp only [rangeLoop, h0, List.length_cons]
    refine ih (k0 + 1) (fun j => F (j + 1)) ?_
    intro j hj
    have hs := h (j + 1) (by simpa using hj)
    simp only [List.getElem_cons_succ] at hs
    rw [show k0 + 1 + j = k0 + (j + 1) by omega]
    exact hs

/-! ## Slices -/

theorem ByteSlice.index_ok (s : ByteSlice) (i : Nat) (h : i < s.elems.length) :
    s.index i = .ok (s.elems[i]) := by
  simp [ByteSlice.index, List.getElem?_eq_getElem h]

theorem ByteSlice.index_panic (s : ByteSlice) (i : Nat) (h : s.elems.length ≤ i) :
    s.index i = .error .panic := by
  simp [ByteSlice.index, List.getElem?_eq_none h]

theorem ByteSlice.sliceFrom_ok (s : ByteSlice) (lo : Nat) (h : lo ≤ s.elems.length) :
    s.sliceFrom lo = .ok ⟨s.elems.drop lo, s.spare⟩ := by
  have h1 : lo ≤ s.len ∧ s.len ≤ s.cap := ⟨h, by simp [ByteSlice.len, ByteSlice.cap]⟩
  simp only [ByteSlice.sliceFrom, ByteSlice.slice, h1, and_self, if_true]
  simp only [ByteSlice.len]
  congr 2
  · rw [List.drop_append_of_le_length h, List.take_append_of_le_length (by simp)]
    simp
  · simp

theorem ByteSlice.sliceFrom_panic (s : ByteSlice) (lo : Nat) (h : s.elems.length < lo) :
    s.sliceFrom lo = .error .panic := by
  have h1 : ¬ (lo ≤ s.len ∧ s.len ≤ s.cap) := by
    simp only [ByteSlice.len]; omega
  simp only [ByteSlice.sliceFrom, ByteSlice.slice, h1, if_false]

/-! ## The passes of `decode` in closed form -/

theorem finRange3 : List.finRange 3 = [0, 1, 2] := by decide

theorem readTile_closed (content : ByteSlice) (i0 : Nat) (h : i0 + 8 ≤ content.elems.length) :
    readTile content i0 = .ok (bitmapTile content.elems i0, i0 + 8) := by
  unfold readTile
  have key := rangeLoop_closed (fun _ (p : Fin 8) (ti : Tile × Nat) =>
        match content.index ti.2 with
        | .ok b => .ok (setBitmap ti.1 p b, ti.2 + 1)
        | .error e => .error e) (List.finRange 8) 0
      (fun j => ((fun q : Fin 8 =>
        if q.val < j then ⟨content.elems.getD (i0 + q.val) 0, 0⟩ else ⟨0, 0⟩ : Tile), i0 + j)) ?_
  · simp only [List.length_finRange] at key
    have e0 : ((fun q : Fin 8 => if q.val < 0 then
        (⟨content.elems.getD (i0 + q.val) 0, 0⟩ : Pattern) else ⟨0, 0⟩ : Tile), i0 + 0)
        = (zeroTile, i0) := by
      simp only [Nat.not_lt_zero, if_false, Nat.add_zero]
      rfl
    have e8 : ((fun q : Fin 8 => if q.val < 8 then
        (⟨content.elems.getD (i0 + q.val) 0, 0⟩ : Pattern) else ⟨0, 0⟩ : Tile), i0 + 8)
        = (bitmapTile content.elems i0, i0 + 8) := by
      congr 1
      funext q
      simp [bitmapTile, q.isLt]
    rw [e0, e8] at key
    exact key
  · intro j hj
    simp only [List.length_finRange] at hj
    simp only [List.getElem_finRange]
    rw [ByteSlice.index_ok content (i0 + j) (by omega)]
    simp only [Except.ok.injEq, Prod.mk.injEq]
    refine ⟨?_, by omega⟩
    funext q
    simp only [setBitmap, Function.update_apply, Fin.ext_iff, Fin.coe_cast]
    by_cases hq : q.val = j
    · simp [hq, List.getD_eq_getElem?_getD,
        List.getElem?_eq_getElem (show i0 + j < content.elems.length by omega)]
    · have : (q.val < j + 1) = (q.val < j) := by
        apply propext; omega
      simp only [hq, if_false, this]

theorem readBank_closed (content : ByteSlice) (t : Fin 3) (ts0 : Image) (i0 : Nat)
    (h : i0 + 2048 ≤ content.elems.length) :
    readBank content t (ts0, i0) =
      .ok (Image.mk (Function.update ts0.Table t (ts0.Table t ++ bitmapBank content.elems i0))
        ts0.Names, i0 + 2048) := by
  unfold readBank
  have key := rangeLoop_closed (fun _ (_ : Nat) (st : Image × Nat) =>
      match readTile content st.2 with
      | .ok ti => .ok (appendTile st.1 t ti.1, ti.2)
      | .error e => .error e) (List.range 256) 0
    (fun j => (Image.mk (Function.update ts0.Table t
        (ts0.Table t ++ (List.range j).map (fun k => bitmapTile content.elems (i0 + 8 * k))))
        ts0.Names, i0 + 8 * j)) ?_
  · simp only [List.length_range, List.range_zero, List.map_nil, List.append_nil,
      Function.update_eq_self, Nat.mul_zero, Nat.add_zero] at key
    exact key
  · intro j hj
    simp only [List.length_range] at hj
    simp only
    rw [readTile_closed content (i0 + 8 * j) (by omega)]
    simp only [appendTile, Function.update_same, Function.update_idem, List.range_succ,
      List.map_append, List.map_cons, List.map_nil, List.append_assoc, Except.ok.injEq,
      Prod.mk.injEq, true_and]
    omega

theorem readBitmaps_closed (content : ByteSlice) (h : 6144 ≤ content.elems.length) :
    readBitmaps content (zeroImage, 0) =
      .ok (⟨fun b => bitmapBank content.elems (2048 * b.val), fun _ => []⟩, 6144) := by
  unfold readBitmaps
  simp only [finRange3, rangeLoop]
  rw [readBank_closed content _ zeroImage 0 (by omega)]
  simp only
  rw [readBank_closed content _ _ _ (by omega)]
  simp only
  rw [readBank_closed content _ _ _ (by omega)]
  simp only [Except.ok.injEq, Prod.mk.injEq, and_true]
  simp only [zeroImage, Image.mk.injEq, and_true]
  funext b
  fin_cases b <;> simp [Function.update_apply]

theorem colorTile_closed (content : ByteSlice) (t : Fin 3) (tl : Nat) (ts0 : Image) (i0 : Nat)
    (tile : Tile) (htl : (ts0.Table t)[tl]? = some tile)
    (h : i0 + 8 ≤ content.elems.length) :
    colorTile content t tl (ts0, i0) =
      .ok (Image.mk (Function.update ts0.Table t
        ((ts0.Table t).set tl (recolor content.elems i0 tile))) ts0.Names, i0 + 8) := by
  unfold colorTile
  have hlt : tl < (ts0.Table t).length := by
    rcases List.getElem?_eq_some_iff.mp htl with ⟨hh, _⟩
    exact hh
  have key := rangeLoop_closed (fun _ (p : Fin 8) (st : Image × Nat) =>
      match content.index st.2 with
      | .ok b =>
        match setTableColor st.1 t tl p b with
        | .ok ts => .ok (ts, st.2 + 1)
        | .error e => .error e
      | .error e => .error e) (List.finRange 8) 0
    (fun j => (Image.mk (Function.update ts0.Table t
        ((ts0.Table t).set tl (fun q : Fin 8 =>
          if q.val < j then ⟨(tile q).Bitmap, content.elems.getD (i0 + q.val) 0⟩ else tile q)))
        ts0.Names, i0 + j)) ?_
  · simp only [List.length_finRange] at key
    have e0 : (ts0.Table t).set tl (fun q : Fin 8 => if q.val < 0 then
        (⟨(tile q).Bitmap, content.elems.getD (i0 + q.val) 0⟩ : Pattern) else tile q)
        = ts0.Table t := by
      simp only [Nat.not_lt_zero, if_false]
      apply List.ext_getElem?
      intro n
      rw [List.getElem?_set]
      split
      · rename_i hn
        subst hn
        simp [hlt, htl]
      · rfl
    have e8 : (fun q : Fin 8 => if q.val < 8 then
        (⟨(tile q).Bitmap, content.elems.getD (i0 + q.val) 0⟩ : Pattern) else tile q)
        = recolor content.elems i0 tile := by
      funext q
      simp [recolor, q.isLt]
    rw [e0, e8] at key
    simp only [Function.update_eq_self, Nat.add_zero] at key
    exact key
  · intro j hj
    simp only [List.length_finRange] at hj
    simp only [List.getElem_finRange]
    rw [ByteSlice.index_ok content (i0 + j) (by omega)]
    simp only [setTableColor, Function.update_same, List.getElem?_set_self hlt,
      Function.update_idem, List.set_set, Except.ok.injEq, Prod.mk.injEq, Image.mk.injEq,
      and_true]
    refine ⟨?_, by omega⟩
    refine congrArg (fun x => Function.update ts0.Table t ((ts0.Table t).set tl x)) ?_
    funext q
    simp only [setColor, Function.update_apply, Fin.ext_iff, Fin.coe_cast]
    by_cases hq : q.val = j
    · have hq' : q = ⟨j, hj⟩ := Fin.ext hq
      subst hq'
      simp [List.getD_eq_getElem?_getD,
        List.getElem?_eq_getElem (show i0 + j < content.elems.length by omega)]
    · have : (q.val < j + 1) = (q.val < j) := by
        apply propext; omega
      simp only [hq, if_false, this]

theorem colorBank_closed (content : ByteSlice) (t : Fin 3) (ts0 : Image) (i0 : Nat)
    (h : i0 + 8 * (ts0.Table t).length ≤ content.elems.length) :
    colorBank content t (ts0, i0) =
      .ok (Image.mk (Function.update ts0.Table t
        (recolorBank content.elems i0 (ts0.Table t))) ts0.Names,
        i0 + 8 * (ts0.Table t).length) := by
  unfold colorBank
  have key := rangeLoop_closed (fun tl (_ : Tile) (st : Image × Nat) =>
      colorTile content t tl st) (ts0.Table t) 0
    (fun j => (Image.mk (Function.update ts0.Table t
        ((ts0.Table t).mapIdx (fun k tile =>
          if k < j then recolor content.elems (i0 + 8 * k) tile else tile)))
        ts0.Names, i0 + 8 * j)) ?_
  · have e0 : (ts0.Table t).mapIdx (fun k tile =>
          if k < 0 then recolor content.elems (i0 + 8 * k) tile else tile) = ts0.Table t := by
      apply List.ext_getElem?
      intro n
      simp
    have eN : (ts0.Table t).mapIdx (fun k tile =>
          if k < (ts0.Table t).length then recolor content.elems (i0 + 8 * k) tile else tile)
          = recolorBank content.elems i0 (ts0.Table t) := by
      unfold recolorBank
      apply List.ext_getElem (by simp)
      intro n h1 h2
      simp only [List.length_mapIdx] at h1
      simp [h1]
    rw [e0, eN] at key
    simp only [Function.update_eq_self, Nat.mul_zero, Nat.add_zero] at key
    exact key
  · intro j hj
    simp only [Nat.zero_add]
    have hj' : ((ts0.Table t).mapIdx (fun k tile =>
          if k < j then recolor content.elems (i0 + 8 * k) tile else tile))[j]?
          = some ((ts0.Table t)[j]) := by
      simp [List.getElem?_eq_getElem hj]
    rw [colorTile_closed content t j _ (i0 + 8 * j) ((ts0.Table t)[j])
      (by simpa only [Function.update_same] using hj') (by omega)]
    simp only [Function.update_same, Function.update_idem, Except.ok.injEq, Prod.mk.injEq,
      Image.mk.injEq, and_true]
    refine ⟨?_, by omega⟩
    refine congrArg (Function.update ts0.Table t) ?_
    apply List.ext_getElem (by simp)
    intro n h1 h2
    simp only [List.length_mapIdx] at h2
    simp only [List.getElem_set, List.getElem_mapIdx]
    by_cases hn : j = n
    · subst hn
      simp
    · have : (n < j + 1) = (n < j) := by
        apply propext; omega
      simp only [hn, if_false, this]

theorem ByteSlice.slice_ok (s : ByteSlice) (lo hi : Nat) (h1 : lo ≤ hi)
    (h : hi ≤ s.elems.length) :
    s.slice lo hi = .ok ⟨(s.elems.drop lo).take (hi - lo), (s.elems ++ s.spare).drop hi⟩ := by
  have hc : lo ≤ hi ∧ hi ≤ s.cap := ⟨h1, by simp only [ByteSlice.cap]; omega⟩
  simp only [ByteSlice.slice, hc, and_self, if_true]
  rw [List.drop_append_of_le_length (by omega), List.take_append_of_le_length (by simp; omega)]

theorem length_bitmapBank (l : List Byte) (base : Nat) : (bitmapBank l base).length = 256 := by
  simp [bitmapBank]

theorem length_recolorBank (l : List Byte) (base : Nat) (tiles : List Tile) :
    (recolorBank l base tiles).length = tiles.length := by
  simp [recolorBank]

theorem readColors_closed (content : ByteSlice) (ts : Image)
    (hts : ∀ b, (ts.Table b).length = 256) (h : 6144 ≤ content.elems.length) :
    readColors content (ts, 0) =
      .ok (Image.mk (fun b => recolorBank content.elems (2048 * b.val) (ts.Table b))
        ts.Names, 6144) := by
  unfold readColors
  simp only [finRange3, rangeLoop]
  rw [colorBank_closed content _ ts 0 (by rw [hts]; omega)]
  simp only
  rw [colorBank_closed content _ _ _ (by
    simp only [Function.update_apply, Fin.ext_iff, hts, length_recolorBank, apply_ite List.length,
      ite_self]
    omega)]
  simp only
  rw [colorBank_closed content _ _ _ (by
    simp only [Function.update_apply, Fin.ext_iff, hts, length_recolorBank, apply_ite List.length,
      ite_self]
    omega)]
  simp only [Except.ok.injEq, Prod.mk.injEq, Image.mk.injEq, and_true]
  refine ⟨?_, by simp [Function.update_apply, hts]⟩
  funext b
  fin_cases b <;> simp [Function.update_apply, hts]

theorem decode_closed (content : ByteSlice) (hlen : content.elems.length = 14343)
    (hsig : content.elems.take 7 = signature) :
    decode content = .ok (decoded content.elems) := by
  have hsl : signature.length = 7 := rfl
  unfold decode
  rw [if_neg (by simp only [ByteSlice.len, minFileLength, hlen]; omega)]
  simp only [ByteSlice.sliceTo, hsl, bind, Except.bind]
  rw [ByteSlice.slice_ok content 0 7 (by omega) (by omega)]
  simp only [List.drop_zero, Nat.sub_zero, hsig, ne_eq, not_true_eq_false, if_false]
  rw [ByteSlice.sliceFrom_ok content 7 (by omega)]
  simp only
  rw [readBitmaps_closed _ (by simp only [List.length_drop]; omega)]
  simp only
  rw [ByteSlice.sliceFrom_ok _ 6144 (by simp only [List.length_drop]; omega)]
  simp only
  rw [ByteSlice.slice_ok _ 0 256 (by omega) (by simp only [List.length_drop]; omega),
    ByteSlice.slice_ok _ 256 512 (by omega) (by simp only [List.length_drop]; omega),
    ByteSlice.slice_ok _ 512 768 (by omega) (by simp only [List.length_drop]; omega)]
  simp only
  rw [ByteSlice.sliceFrom_ok _ 768 (by simp only [List.length_drop]; omega)]
  simp only [AddrColorTable1, AddrSpriteAttrs]
  rw [ByteSlice.sliceFrom_ok _ (8192 - 6912) (by simp only [List.length_drop]; omega)]
  simp only
  rw [readColors_closed _ _ (fun b => length_bitmapBank _ _)
    (by simp only [List.length_drop]; omega)]
  simp only [pure, Except.pure, List.drop_drop, decoded, List.drop_zero, Nat.reduceAdd,
    Nat.reduceSub, Nat.add_zero]

/-! ## What a successful run of a loop implies -/

theorem rangeLoop_ok_inv {α σ : Type} (body : Nat → α → σ → Except Fault σ) (xs : List α) :
    ∀ (k0 : Nat) (Inv : Nat → σ → Prop) (s s' : σ), Inv 0 s →
      (∀ j (hj : j < xs.length) (a a' : σ), Inv j a → body (k0 + j) (xs[j]) a = .ok a' →
        Inv (j + 1) a') →
      rangeLoop body k0 xs s = .ok s' → Inv xs.length s' := by
  induction xs with
  | nil =>
    intro k0 Inv s s' h0 _ h
    simp only [rangeLoop, Except.ok.injEq] at h
    subst h
    exact h0
  | cons x xs ih =>
    intro k0 Inv s s' h0 hstep h
    simp only [rangeLoop] at h
    cases hb : body k0 x s with
    | error e => rw [hb] at h; cases h
    | ok s1 =>
      rw [hb] at h
      have h1 : Inv 1 s1 := hstep 0 (by simp) s s1 h0 (by simpa using hb)
      refine ih (k0 + 1) (fun j => Inv (j + 1)) s1 s' h1 ?_ h
      intro j hj a a' ha hba
      refine hstep (j + 1) (by simpa using hj) a a' ha ?_
      rw [show k0 + (j + 1) = k0 + 1 + j by omega]
      simpa using hba

theorem readTile_ok_bound (content : ByteSlice) (i0 : Nat) (r : Tile × Nat)
    (h : readTile content i0 = .ok r) : r.2 = i0 + 8 ∧ i0 + 8 ≤ content.elems.length := by
  unfold readTile at h
  have key := rangeLoop_ok_inv _ (List.finRange 8) 0
    (fun j (ti : Tile × Nat) => ti.2 = i0 + j ∧ (0 < j → ti.2 ≤ content.elems.length))
    (zeroTile, i0) r ⟨rfl, fun hc => absurd hc (by omega)⟩ ?_ h
  · simp only [List.length_finRange] at key
    exact ⟨key.1, by have := key.2 (by omega); omega⟩
  · intro j hj a a' ha hb
    simp only at hb
    by_cases hlt : a.2 < content.elems.length
    · rw [ByteSlice.index_ok content a.2 hlt] at hb
      simp only [Except.ok.injEq] at hb
      subst hb
      exact ⟨by simp only; omega, fun _ => by simp only; omega⟩
    · rw [ByteSlice.index_panic content a.2 (by omega)] at hb
      cases hb

theorem readBank_ok_bound (content : ByteSlice) (t : Fin 3) (st r : Image × Nat)
    (h : readBank content t st = .ok r) :
    r.2 = st.2 + 2048 ∧ st.2 + 2048 ≤ content.elems.length := by
  unfold readBank at h
  have key := rangeLoop_ok_inv _ (List.range 256) 0
    (fun j (a : Image × Nat) => a.2 = st.2 + 8 * j ∧ (0 < j → a.2 ≤ content.elems.length))
    st r ⟨rfl, fun hc => absurd hc (by omega)⟩ ?_ h
  · simp only [List.length_range] at key
    exact ⟨key.1, by have := key.2 (by omega); omega⟩
  · intro j hj a a' ha hb
    simp only at hb
    cases hr : readTile content a.2 with
    | error e => rw [hr] at hb; cases hb
    | ok ti =>
      rw [hr] at hb
      simp only [Except.ok.injEq] at hb
      subst hb
      have := readTile_ok_bound content a.2 ti hr
      exact ⟨by simp only; omega, fun _ => by simp only; omega⟩

theorem readBitmaps_ok_bound (content : ByteSlice) (st r : Image × Nat)
    (h : readBitmaps content st = .ok r) : st.2 + 6144 ≤ content.elems.length := by
  unfold readBitmaps at h
  have key := rangeLoop_ok_inv _ (List.finRange 3) 0
    (fun j (a : Image × Nat) => a.2 = st.2 + 2048 * j ∧ (0 < j → a.2 ≤ content.elems.length))
    st r ⟨rfl, fun hc => absurd hc (by omega)⟩ ?_ h
  · simp only [List.length_finRange] at key
    have := key.2 (by omega)
    omega
  · intro j hj a a' ha hb
    have := readBank_ok_bound content _ a a' hb
    exact ⟨by omega, fun _ => by omega⟩

theorem setTableColor_length (ts ts' : Image) (t : Fin 3) (tl : Nat) (p : Fin 8) (v : Byte)
    (h : setTableColor ts t tl p v = .ok ts') (b : Fin 3) :
    (ts'.Table b).length = (ts.Table b).length := by
  unfold setTableColor at h
  split at h
  · simp only [Except.ok.injEq] at h
    subst h
    by_cases hb : b = t
    · subst hb
      simp
    · simp [Function.update_noteq hb]
  · cases h

theorem colorTile_ok_bound (content : ByteSlice) (t : Fin 3) (tl : Nat) (st r : Image × Nat)
    (h : colorTile content t tl st = .ok r) :
    r.2 = st.2 + 8 ∧ st.2 + 8 ≤ content.elems.length ∧
      ∀ b, (r.1.Table b).length = (st.1.Table b).length := by
  unfold colorTile at h
  have key := rangeLoop_ok_inv _ (List.finRange 8) 0
    (fun j (a : Image × Nat) => a.2 = st.2 + j ∧ (0 < j → a.2 ≤ content.elems.length) ∧
      ∀ b, (a.1.Table b).length = (st.1.Table b).length)
    st r ⟨rfl, fun hc => absurd hc (by omega), fun _ => rfl⟩ ?_ h
  · simp only [List.length_finRange] at key
    exact ⟨key.1, by have := key.2.1 (by omega); omega, key.2.2⟩
  · intro j hj a a' ha hb
    simp only at hb
    by_cases hlt : a.2 < content.elems.length
    · rw [ByteSlice.index_ok content a.2 hlt] at hb
      simp only at hb
      split at hb
      · rename_i ts' hts'
        simp only [Except.ok.injEq] at hb
        subst hb
        refine ⟨by simp only; omega, fun _ => by simp only; omega, fun b => ?_⟩
        simp only
        rw [setTableColor_length _ _ _ _ _ _ hts' b]
        exact ha.2.2 b
      · cases hb
    · rw [ByteSlice.index_panic content a.2 (by omega)] at hb
      cases hb

theorem colorBank_ok_bound (content : ByteSlice) (t : Fin 3) (st r : Image × Nat)
    (h : colorBank content t st = .ok r) :
    r.2 = st.2 + 8 * (st.1.Table t).length ∧
      (0 < (st.1.Table t).length → r.2 ≤ content.elems.length) ∧
      ∀ b, (r.1.Table b).length = (st.1.Table b).length := by
  unfold colorBank at h
  exact rangeLoop_ok_inv _ (st.1.Table t) 0
    (fun j (a : Image × Nat) => a.2 = st.2 + 8 * j ∧ (0 < j → a.2 ≤ content.elems.length) ∧
      ∀ b, (a.1.Table b).length = (st.1.Table b).length)
    st r ⟨rfl, fun hc => absurd hc (by omega), fun _ => rfl⟩ (by
      intro j hj a a' ha hb
      have := colorTile_ok_bound content t _ a a' hb
      refine ⟨by omega, fun _ => by omega, fun b => ?_⟩
      rw [this.2.2 b]
      exact ha.2.2 b) h

theorem readColors_ok_bound (content : ByteSlice) (st r : Image × Nat)
    (hts : ∀ b, (st.1.Table b).length = 256)
    (h : readColors content st = .ok r) : st.2 + 6144 ≤ content.elems.length := by
  unfold readColors at h
  have key := rangeLoop_ok_inv _ (List.finRange 3) 0
    (fun j (a : Image × Nat) => a.2 = st.2 + 2048 * j ∧ (0 < j → a.2 ≤ content.elems.length) ∧
      ∀ b, (a.1.Table b).length = 256)
    st r ⟨rfl, fun hc => absurd hc (by omega), hts⟩ ?_ h
  · simp only [List.length_finRange] at key
    have := key.2.1 (by omega)
    omega
  · intro j hj a a' ha hb
    have := colorBank_ok_bound content _ a a' hb
    rw [ha.2.2] at this
    refine ⟨by omega, fun _ => this.2.1 (by omega), fun b => ?_⟩
    rw [this.2.2 b]
    exact ha.2.2 b

/-! ## When `decode` succeeds -/

theorem decode_tooShort_of_gt (content : ByteSlice) (h : minFileLength < content.len) :
    decode content = .error (.fileTooShort content.len minFileLength) := by
  unfold decode
  rw [if_pos h]

theorem decode_ok_shape (content : ByteSlice) (img : Image) (h : decode content = .ok img) :
    content.elems.length = 14343 ∧ content.elems.take 7 = signature := by
  have hsl : signature.length = 7 := rfl
  unfold decode at h
  by_cases hgt : content.len > minFileLength
  · rw [if_pos hgt] at h
    cases h
  rw [if_neg hgt] at h
  simp only [ByteSlice.len, minFileLength] at hgt
  simp only [ByteSlice.sliceTo, hsl, bind, Except.bind] at h
  by_cases h7 : 7 ≤ content.elems.length
  swap
  · -- the slice after the signature check panics
    split at h
    · cases h
    · split at h
      · cases h
      · rw [ByteSlice.sliceFrom_panic content 7 (by omega)] at h
        cases h
  rw [ByteSlice.slice_ok content 0 7 (by omega) h7] at h
  simp only [List.drop_zero, Nat.sub_zero] at h
  by_cases hsig : signature = content.elems.take 7
  swap
  · rw [if_pos hsig] at h
    cases h
  rw [if_neg (by simpa using hsig)] at h
  rw [ByteSlice.sliceFrom_ok content 7 h7] at h
  simp only at h
  cases hbm : readBitmaps ⟨content.elems.drop 7, content.spare⟩ (zeroImage, 0) with
  | error e => rw [hbm] at h; cases h
  | ok r =>
    have hb := readBitmaps_ok_bound _ _ _ hbm
    simp only [List.length_drop, Nat.zero_add] at hb
    rw [readBitmaps_closed _ (by simp only [List.length_drop]; omega)] at hbm
    simp only [Except.ok.injEq] at hbm
    rw [readBitmaps_closed _ (by simp only [List.length_drop]; omega)] at h
    simp only at h
    rw [ByteSlice.sliceFrom_ok _ 6144 (by simp only [List.length_drop]; omega)] at h
    simp only at h
    by_cases h768 : 6144 + 768 ≤ content.elems.length - 7
    swap
    · split at h
      · cases h
      · split at h
        · cases h
        · split at h
          · cases h
          · rw [ByteSlice.sliceFrom_panic _ 768 (by
              simp only [List.length_drop]; omega)] at h
            cases h
    rw [ByteSlice.slice_ok _ 0 256 (by omega) (by simp only [List.length_drop]; omega),
      ByteSlice.slice_ok _ 256 512 (by omega) (by simp only [List.length_drop]; omega),
      ByteSlice.slice_ok _ 512 768 (by omega) (by simp only [List.length_drop]; omega)] at h
    simp only at h
    rw [ByteSlice.sliceFrom_ok _ 768 (by simp only [List.length_drop]; omega)] at h
    simp only [AddrColorTable1, AddrSpriteAttrs] at h
    by_cases h1280 : 6144 + 768 + 1280 ≤ content.elems.length - 7
    swap
    · rw [ByteSlice.sliceFrom_panic _ (8192 - 6912) (by
        simp only [List.length_drop]; omega)] at h
      cases h
    rw [ByteSlice.sliceFrom_ok _ (8192 - 6912) (by simp only [List.length_drop]; omega)] at h
    simp only at h
    split at h
    · cases h
    · rename_i rc hrc
      have hc := readColors_ok_bound _ _ _ (fun b => length_bitmapBank _ _) hrc
      simp only [List.length_drop] at hc
      exact ⟨by omega, hsig.symm⟩

/-! ## `Encode` in closed form -/

theorem storeTile_closed (getter : Pattern → Byte) (tiles : List Tile) (j : Nat)
    (hj : j < tiles.length) (h256 : tiles.length ≤ 256) :
    storeTile getter j (tiles[j])
        ((List.range 2048).map (fun k => if k / 8 < j then tileByte getter tiles k else 0))
      = .ok ((List.range 2048).map
          (fun k => if k / 8 < j + 1 then tileByte getter tiles k else 0)) := by
  unfold storeTile
  have key := rangeLoop_closed (fun pn (pattern : Pattern) (bytes : List Byte) =>
      setIndex bytes (j * TilePatterns + pn) (getter pattern)) (List.ofFn (tiles[j])) 0
    (fun m => (List.range 2048).map (fun k =>
      if k / 8 < j ∨ (k / 8 = j ∧ k % 8 < m) then tileByte getter tiles k else 0)) ?_
  · simp only [List.length_ofFn] at key
    have e0 : (fun k => if k / 8 < j ∨ (k / 8 = j ∧ k % 8 < 0) then
        tileByte getter tiles k else 0) = (fun k => if k / 8 < j then
        tileByte getter tiles k else 0) := by
      funext k
      simp
    have e8 : (fun k => if k / 8 < j ∨ (k / 8 = j ∧ k % 8 < 8) then
        tileByte getter tiles k else 0) = (fun k => if k / 8 < j + 1 then
        tileByte getter tiles k else 0) := by
      funext k
      have : (k / 8 < j ∨ (k / 8 = j ∧ k % 8 < 8)) = (k / 8 < j + 1) := by
        apply propext; omega
      simp only [this]
    rw [e0, e8] at key
    exact key
  · intro m hm
    simp only [List.length_ofFn] at hm
    simp only [Nat.zero_add, List.getElem_ofFn, setIndex, TilePatterns, List.length_map,
      List.length_range]
    rw [if_pos (by omega)]
    simp only [Except.ok.injEq]
    apply List.ext_getElem (by simp)
    intro n h1 h2
    simp only [List.length_map, List.length_range] at h2
    simp only [List.getElem_set, List.getElem_map, List.getElem_range]
    by_cases hn : j * 8 + m = n
    · have hd : n / 8 = j := by omega
      have hmod : n % 8 = m := by omega
      rw [if_pos hn, if_pos (by omega)]
      simp only [tileByte, hd, List.getElem?_eq_getElem hj]
      subst hmod
      rfl
    · rw [if_neg hn]
      have : (n / 8 < j ∨ (n / 8 = j ∧ n % 8 < m + 1)) = (n / 8 < j ∨ (n / 8 = j ∧ n % 8 < m)) := by
        apply propext; omega
      simp only [this]

theorem storeTiles_closed (getter : Pattern → Byte) (tiles : List Tile)
    (h256 : tiles.length ≤ 256) :
    rangeLoop (storeTile getter) 0 tiles (List.replicate tablePatterns 0)
      = .ok ((List.range 2048).map (tileByte getter tiles)) := by
  have key := rangeLoop_closed (storeTile getter) tiles 0
    (fun j => (List.range 2048).map (fun k => if k / 8 < j then tileByte getter tiles k else 0))
    (by
      intro j hj
      rw [Nat.zero_add]
      exact storeTile_closed getter tiles j hj h256)
  have e0 : (List.range 2048).map (fun k => if k / 8 < 0 then tileByte getter tiles k else 0)
      = List.replicate tablePatterns (0 : Byte) := by
    apply List.ext_getElem (by
      simp only [List.length_map, List.length_range, List.length_replicate, tablePatterns,
        TableTiles, TilePatterns])
    intro n h1 h2
    simp only [List.getElem_map, List.getElem_range, List.getElem_replicate, Nat.not_lt_zero,
      if_false]
  have eN : (fun k => if k / 8 < tiles.length then tileByte getter tiles k else 0)
      = tileByte getter tiles := by
    funext k
    by_cases hk : k / 8 < tiles.length
    · rw [if_pos hk]
    · rw [if_neg hk]
      simp only [tileByte, List.getElem?_eq_none (show tiles.length ≤ k / 8 by omega)]
  simp only at key
  rw [e0, eN] at key
  exact key

theorem acquireBytes_closed (getter : Pattern → Byte) (tiles : List Tile) :
    acquireBytes tiles true getter = .ok (blockOf getter tiles) := by
  unfold acquireBytes
  have ht : (if tiles.length > TableTiles then tiles.take TableTiles else tiles)
      = tiles.take 256 := by
    simp only [TableTiles]
    split
    · rfl
    · rw [List.take_of_length_le (by omega)]
  simp only [ht, bind, Except.bind]
  rw [storeTiles_closed getter (tiles.take 256) (by simp only [List.length_take]; omega)]
  rfl

theorem length_blockOf (getter : Pattern → Byte) (tiles : List Tile) :
    (blockOf getter tiles).length = 2048 := by
  simp [blockOf]

theorem ofFn3 {α : Type} (f : Fin 3 → α) : List.ofFn f = [f 0, f 1, f 2] := by
  simp [List.ofFn_succ]

theorem writeNames_closed (out names : List Byte) :
    writeNames out names true = out ++ namesOf names := by
  unfold writeNames namesOf
  simp only [TableTiles, true_and]
  split
  · simp
  · have : 256 - names.length = 0 := by omega
    simp [this]

theorem Encoder_Encode_closed (e : Encoder) (x : Image) :
    e.Encode x = .ok (encoded x) := by
  unfold Encoder.Encode
  simp only [ofFn3, rangeLoop, bind, Except.bind, acquireBytes_closed, pure, Except.pure,
    writeNames_closed, AddrColorTable1, AddrSpriteAttrs, encoded, List.append_assoc,
    Nat.reduceSub]
  rfl

theorem Encode_closed (x : Image) : Encode x = .ok (encoded x) :=
  Encoder_Encode_closed _ x

/-! ## Reading the closed forms by offset -/

theorem getD_drop_zero (l : List Byte) (n i : Nat) : (l.drop n).getD i 0 = l.getD (n + i) 0 := by
  simp only [List.getD_eq_getElem?_getD, List.getElem?_drop]

theorem getElem?_append_at {α : Type} (l1 l2 : List α) (n k : Nat) (h : l1.length = n) :
    (l1 ++ l2)[n + k]? = l2[k]? := by
  subst h
  rw [List.getElem?_append_right (by omega)]
  congr 1
  omega

theorem getElem?_append_lt {α : Type} (l1 l2 : List α) (k : Nat) (h : k < l1.length) :
    (l1 ++ l2)[k]? = l1[k]? :=
  List.getElem?_append_left h

theorem getElem?_blocks (B : Fin 3 → List Byte) (rest : List Byte)
    (hB : ∀ b, (B b).length = 2048) (b : Fin 3) (k : Nat) (hk : k < 2048) :
    (B 0 ++ (B 1 ++ (B 2 ++ rest)))[2048 * b.val + k]? = (B b)[k]? := by
  fin_cases b
  · simp only [Fin.zero_eta, Fin.val_zero, Nat.mul_zero, Nat.zero_add]
    rw [getElem?_append_lt _ _ _ (by rw [hB]; exact hk)]
  · simp only [Fin.mk_one, Fin.val_one, Nat.mul_one]
    rw [getElem?_append_at _ _ 2048 k (hB 0), getElem?_append_lt _ _ _ (by rw [hB]; exact hk)]
  · simp only [Fin.reduceFinMk, Fin.val_two]
    rw [show 2048 * 2 + k = 2048 + (2048 + k) by omega,
      getElem?_append_at _ _ 2048 _ (hB 0), getElem?_append_at _ _ 2048 _ (hB 1),
      getElem?_append_lt _ _ _ (by rw [hB]; exact hk)]

theorem getElem?_blockOf (getter : Pattern → Byte) (tiles : List Tile) (k : Nat)
    (hk : k < 2048) : (blockOf getter tiles)[k]? = some (tileByte getter (tiles.take 256) k) := by
  unfold blockOf
  rw [List.getElem?_eq_getElem (by simpa using hk)]
  simp only [List.getElem_map, List.getElem_range]

theorem tileByte_slot (getter : Pattern → Byte) (tiles : List Tile) (t : Nat) (p : Fin 8)
    (ht : t < tiles.length) :
    tileByte getter tiles (8 * t + p.val) = getter (tiles[t] p) := by
  have hd : (8 * t + p.val) / 8 = t := by omega
  have hm : (8 * t + p.val) % 8 = p.val := by omega
  have hp : (⟨(8 * t + p.val) % 8, Nat.mod_lt _ (by decide)⟩ : Fin 8) = p := Fin.ext hm
  simp only [tileByte, hd, List.getElem?_eq_getElem ht, hp]

theorem tileByte_past (getter : Pattern → Byte) (tiles : List Tile) (k : Nat)
    (h : tiles.length ≤ k / 8) : tileByte getter tiles k = 0 := by
  simp only [tileByte, List.getElem?_eq_none h]

theorem length_namesOf (names : List Byte) (h : names.length ≤ 256) :
    (namesOf names).length = 256 := by
  simp only [namesOf, List.length_append, List.length_replicate]
  omega

theorem length_encoded (x : Image) (h : ∀ b, (x.Names b).length ≤ 256) :
    (encoded x).length = 14343 := by
  simp only [encoded, List.length_append, length_blockOf, length_namesOf _ (h _),
    List.length_replicate, signature, List.length_cons, List.length_nil]

theorem take_signature_encoded (x : Image) : (encoded x).take 7 = signature := by
  simp only [encoded]
  exact List.take_left' (show signature.length = 7 from rfl)

/-- The bitmap byte of bank `b`, slot `k`, in what `Encode` writes. -/
theorem encoded_bitmap (x : Image) (b : Fin 3) (k : Nat) (hk : k < 2048) :
    (encoded x)[7 + (2048 * b.val + k)]? =
      some (tileByte Pattern.Bitmap ((x.Table b).take 256) k) := by
  simp only [encoded]
  rw [getElem?_append_at signature _ 7 _ (show signature.length = 7 from rfl),
    getElem?_blocks (fun b => blockOf Pattern.Bitmap (x.Table b)) _
      (fun _ => length_blockOf _ _) b k hk]
  exact getElem?_blockOf _ _ k hk

/-- The color byte of bank `b`, slot `k`, in what `Encode` writes. -/
theorem encoded_color_at (x : Image) (b : Fin 3) (k : Nat) (hk : k < 2048) :
    (encoded x)[colorStart x + (2048 * b.val + k)]? =
      some (tileByte Pattern.Color ((x.Table b).take 256) k) := by
  simp only [encoded, colorStart]
  rw [show 7 + 6144 + ((namesOf (x.Names 0)).length + (namesOf (x.Names 1)).length +
        (namesOf (x.Names 2)).length) + 1280 + (2048 * b.val + k)
      = 7 + (2048 + (2048 + (2048 + ((namesOf (x.Names 0)).length +
          ((namesOf (x.Names 1)).length + ((namesOf (x.Names 2)).length +
          (1280 + (2048 * b.val + k)))))))) by omega,
    getElem?_append_at signature _ 7 _ (show signature.length = 7 from rfl),
    getElem?_append_at _ _ 2048 _ (length_blockOf _ _),
    getElem?_append_at _ _ 2048 _ (length_blockOf _ _),
    getElem?_append_at _ _ 2048 _ (length_blockOf _ _),
    getElem?_append_at _ _ _ _ rfl,
    getElem?_append_at _ _ _ _ rfl,
    getElem?_append_at _ _ _ _ rfl,
    getElem?_append_at _ _ 1280 _ (List.length_replicate _ _)]
  have := getElem?_blocks (fun b => blockOf Pattern.Color (x.Table b)) []
      (fun _ => length_blockOf _ _) b k hk
  simp only [List.append_nil] at this
  rw [this]
  exact getElem?_blockOf _ _ k hk

theorem colorStart_eq (x : Image) (h : ∀ b, (x.Names b).length ≤ 256) : colorStart x = 8199 := by
  simp only [colorStart, length_namesOf _ (h _)]

/-- The color byte of bank `b`, slot `k`, in what `Encode` writes, when no name table has
more than 256 entries. -/
theorem encoded_color (x : Image) (h : ∀ b, (x.Names b).length ≤ 256) (b : Fin 3) (k : Nat)
    (hk : k < 2048) :
    (encoded x)[8199 + (2048 * b.val + k)]? =
      some (tileByte Pattern.Color ((x.Table b).take 256) k) := by
  rw [← colorStart_eq x h]
  exact encoded_color_at x b k hk

theorem drop_append_at {α : Type} (l1 l2 : List α) (n m : Nat) (h : l1.length = n) :
    (l1 ++ l2).drop (n + m) = l2.drop m := by
  subst h
  rw [List.drop_append]

/-- The name bytes of bank `b` in what `Encode` writes, when no name table has more than
256 entries. -/
theorem encoded_names (x : Image) (h : ∀ b, (x.Names b).length ≤ 256) (b : Fin 3) :
    ((encoded x).drop (6151 + 256 * b.val)).take 256 = namesOf (x.Names b) := by
  simp only [encoded]
  fin_cases b
  · rw [show 6151 + 256 * ((⟨0, by decide⟩ : Fin 3) : Nat) = 7 + (2048 + (2048 + (2048 + 0))) from rfl,
      drop_append_at signature _ 7 _ rfl, drop_append_at _ _ 2048 _ (length_blockOf _ _),
      drop_append_at _ _ 2048 _ (length_blockOf _ _),
      drop_append_at _ _ 2048 _ (length_blockOf _ _), List.drop_zero]
    exact List.take_left' (length_namesOf _ (h _))
  · rw [show 6151 + 256 * ((⟨1, by decide⟩ : Fin 3) : Nat)
        = 7 + (2048 + (2048 + (2048 + (256 + 0)))) from rfl,
      drop_append_at signature _ 7 _ rfl, drop_append_at _ _ 2048 _ (length_blockOf _ _),
      drop_append_at _ _ 2048 _ (length_blockOf _ _),
      drop_append_at _ _ 2048 _ (length_blockOf _ _),
      drop_append_at _ _ 256 _ (length_namesOf _ (h _)), List.drop_zero]
    exact List.take_left' (length_namesOf _ (h _))
  · rw [show 6151 + 256 * ((⟨2, by decide⟩ : Fin 3) : Nat)
        = 7 + (2048 + (2048 + (2048 + (256 + (256 + 0))))) from rfl,
      drop_append_at signature _ 7 _ rfl, drop_append_at _ _ 2048 _ (length_blockOf _ _),
      drop_append_at _ _ 2048 _ (length_blockOf _ _),
      drop_append_at _ _ 2048 _ (length_blockOf _ _),
      drop_append_at _ _ 256 _ (length_namesOf _ (h _)),
      drop_append_at _ _ 256 _ (length_namesOf _ (h _)), List.drop_zero]
    exact List.take_left' (length_namesOf _ (h _))

theorem decoded_names (c : List Byte) (b : Fin 3) :
    (decoded c).Names b = (c.drop (6151 + 256 * b.val)).take 256 := by
  fin_cases b <;> rfl

theorem length_decoded_table (c : List Byte) (b : Fin 3) :
    ((decoded c).Table b).length = 256 := by
  simp only [decoded, length_recolorBank, length_bitmapBank]

theorem decoded_tile (c : List Byte) (b : Fin 3) (t : Nat) (ht : t < 256) :
    ((decoded c).Table b)[t]? = some (fun p : Fin 8 =>
      (⟨c.getD (7 + (2048 * b.val + 8 * t + p.val)) 0,
        c.getD (8199 + (2048 * b.val + 8 * t + p.val)) 0⟩ : Pattern)) := by
  rw [List.getElem?_eq_getElem (by rw [length_decoded_table]; exact ht)]
  simp only [decoded, recolorBank, bitmapBank, List.getElem_mapIdx, List.getElem_map,
    List.getElem_range]
  congr 1
  funext p
  simp only [recolor, bitmapTile, getD_drop_zero]

theorem decoded_encoded_table (x : Image) (h : ∀ b, (x.Names b).length ≤ 256) (b : Fin 3)
    (t : Nat) (ht : t < 256) :
    ((decoded (encoded x)).Table b)[t]? = some (fun p : Fin 8 =>
      (⟨tileByte Pattern.Bitmap ((x.Table b).take 256) (8 * t + p.val),
        tileByte Pattern.Color ((x.Table b).take 256) (8 * t + p.val)⟩ : Pattern)) := by
  rw [decoded_tile _ b t ht]
  congr 1
  funext p
  have hk : 8 * t + p.val < 2048 := by omega
  simp only [List.getD_eq_getElem?_getD, Nat.add_assoc, encoded_bitmap x b _ hk,
    encoded_color x h b _ hk, Option.getD_some]

/-! ## Faults of the loops are panics -/

theorem rangeLoop_error_inv {α σ : Type} (body : Nat → α → σ → Except Fault σ)
    (P : Fault → Prop) (hbody : ∀ k x s e, body k x s = .error e → P e) (xs : List α) :
    ∀ (k0 : Nat) (s : σ) (e : Fault), rangeLoop body k0 xs s = .error e → P e := by
  induction xs with
  | nil => intro k0 s e h; cases h
  | cons x xs ih =>
    intro k0 s e h
    simp only [rangeLoop] at h
    cases hb : body k0 x s with
    | error e1 =>
      rw [hb] at h
      simp only [Except.error.injEq] at h
      subst h
      exact hbody _ _ _ _ hb
    | ok s1 =>
      rw [hb] at h
      exact ih _ _ _ h

theorem ByteSlice.index_error (s : ByteSlice) (i : Nat) (e : Fault)
    (h : s.index i = .error e) : e = .panic := by
  unfold ByteSlice.index at h
  split at h
  · cases h
  · simp only [Except.error.injEq] at h
    exact h.symm

theorem ByteSlice.slice_error (s : ByteSlice) (lo hi : Nat) (e : Fault)
    (h : s.slice lo hi = .error e) : e = .panic := by
  unfold ByteSlice.slice at h
  split at h
  · cases h
  · simp only [Except.error.injEq] at h
    exact h.symm

theorem setTableColor_error (ts : Image) (t : Fin 3) (tl : Nat) (p : Fin 8) (v : Byte)
    (e : Fault) (h : setTableColor ts t tl p v = .error e) : e = .panic := by
  unfold setTableColor at h
  split at h
  · cases h
  · simp only [Except.error.injEq] at h
    exact h.symm

theorem readTile_error (content : ByteSlice) (i : Nat) (e : Fault)
    (h : readTile content i = .error e) : e = .panic := by
  unfold readTile at h
  refine rangeLoop_error_inv _ (fun e => e = .panic) ?_ _ _ _ _ h
  intro k x s e1 hb
  simp only at hb
  split at hb
  · cases hb
  · rename_i e2 he2
    simp only [Except.error.injEq] at hb
    subst hb
    exact ByteSlice.index_error _ _ _ he2

theorem readBank_error (content : ByteSlice) (t : Fin 3) (st : Image × Nat) (e : Fault)
    (h : readBank content t st = .error e) : e = .panic := by
  unfold readBank at h
  refine rangeLoop_error_inv _ (fun e => e = .panic) ?_ _ _ _ _ h
  intro k x s e1 hb
  simp only at hb
  split at hb
  · cases hb
  · rename_i e2 he2
    simp only [Except.error.injEq] at hb
    subst hb
    exact readTile_error _ _ _ he2

theorem readBitmaps_error (content : ByteSlice) (st : Image × Nat) (e : Fault)
    (h : readBitmaps content st = .error e) : e = .panic := by
  unfold readBitmaps at h
  exact rangeLoop_error_inv _ (fun e => e = .panic)
    (fun _ _ _ _ hb => readBank_error _ _ _ _ hb) _ _ _ _ h

theorem colorTile_error (content : ByteSlice) (t : Fin 3) (tl : Nat) (st : Image × Nat)
    (e : Fault) (h : colorTile content t tl st = .error e) : e = .panic := by
  unfold colorTile at h
  refine rangeLoop_error_inv _ (fun e => e = .panic) ?_ _ _ _ _ h
  intro k x s e1 hb
  simp only at hb
  split at hb
  · split at hb
    · cases hb
    · rename_i e2 he2
      simp only [Except.error.injEq] at hb
      subst hb
      exact setTableColor_error _ _ _ _ _ _ he2
  · rename_i e2 he2
    simp only [Except.error.injEq] at hb
    subst hb
    exact ByteSlice.index_error _ _ _ he2

theorem colorBank_error (content : ByteSlice) (t : Fin 3) (st : Image × Nat) (e : Fault)
    (h : colorBank content t st = .error e) : e = .panic := by
  unfold colorBank at h
  exact rangeLoop_error_inv _ (fun e => e = .panic)
    (fun _ _ _ _ hb => colorTile_error _ _ _ _ _ hb) _ _ _ _ h

theorem readColors_error (content : ByteSlice) (st : Image × Nat) (e : Fault)
    (h : readColors content st = .error e) : e = .panic := by
  unfold readColors at h
  exact rangeLoop_error_inv _ (fun e => e = .panic)
    (fun _ _ _ _ hb => colorBank_error _ _ _ _ hb) _ _ _ _ h

/-- After the signature check, every fault of `decode` is a panic. -/
theorem decode_error_after_signature (content : ByteSlice) (e : Fault)
    (hlen : content.len ≤ minFileLength) (hsig : content.elems.take 7 = signature)
    (h : decode content = .error e) : e = .panic := by
  have hsl : signature.length = 7 := rfl
  have h7 : 7 ≤ content.elems.length := by
    have := congrArg List.length hsig
    simp only [List.length_take, hsl] at this
    omega
  unfold decode at h
  rw [if_neg (by omega)] at h
  simp only [ByteSlice.sliceTo, hsl, bind, Except.bind] at h
  rw [ByteSlice.slice_ok content 0 7 (by omega) h7] at h
  simp only [List.drop_zero, Nat.sub_zero, hsig, ne_eq, not_true_eq_false, if_false] at h
  split at h
  · rename_i e1 he1
    simp only [Except.error.injEq] at h
    subst h
    exact ByteSlice.slice_error _ _ _ _ he1
  split at h
  · rename_i e1 he1
    simp only [Except.error.injEq] at h
    subst h
    exact readBitmaps_error _ _ _ he1
  split at h
  · rename_i e1 he1
    simp only [Except.error.injEq] at h
    subst h
    exact ByteSlice.slice_error _ _ _ _ he1
  split at h
  · rename_i e1 he1
    simp only [Except.error.injEq] at h
    subst h
    exact ByteSlice.slice_error _ _ _ _ he1
  split at h
  · rename_i e1 he1
    simp only [Except.error.injEq] at h
    subst h
    exact ByteSlice.slice_error _ _ _ _ he1
  split at h
  · rename_i e1 he1
    simp only [Except.error.injEq] at h
    subst h
    exact ByteSlice.slice_error _ _ _ _ he1
  split at h
  · rename_i e1 he1
    simp only [Except.error.injEq] at h
    subst h
    exact ByteSlice.slice_error _ _ _ _ he1
  split at h
  · rename_i e1 he1
    simp only [Except.error.injEq] at h
    subst h
    exact ByteSlice.slice_error _ _ _ _ he1
  split at h
  · rename_i e1 he1
    simp only [Except.error.injEq] at h
    subst h
    exact readColors_error _ _ _ he1
  · cases h

/-- A correctly signed input shorter than `minFileLength` makes `decode` panic. -/
theorem decode_short_panics (content : ByteSlice) (hsig : content.elems.take 7 = signature)
    (hlen : content.elems.length < 14343) : decode content = .error .panic := by
  cases h : decode content with
  | ok img =>
    have := (decode_ok_shape content img h).1
    omega
  | error e =>
    rw [decode_error_after_signature content e
      (by simp only [ByteSlice.len, minFileLength]; omega) hsig h]

/-! ## The claims -/

theorem namesOf_full (names : List Byte) (h : names.length = 256) : namesOf names = names := by
  simp [namesOf, h]

theorem decoded_encoded_full (x : Image) (hT : ∀ b, (x.Table b).length = 256)
    (hN : ∀ b, (x.Names b).length = 256) : decoded (encoded x) = x := by
  have hN' : ∀ b, (x.Names b).length ≤ 256 := fun b => by rw [hN b]
  have hTab : (decoded (encoded x)).Table = x.Table := by
    funext b
    apply List.ext_getElem?
    intro n
    by_cases hn : n < 256
    · rw [decoded_encoded_table x hN' b n hn,
        List.getElem?_eq_getElem (show n < (x.Table b).length by rw [hT]; exact hn)]
      congr 1
      funext p
      rw [List.take_of_length_le (by rw [hT]),
        tileByte_slot _ _ n p (by rw [hT]; exact hn),
        tileByte_slot _ _ n p (by rw [hT]; exact hn)]
    · rw [List.getElem?_eq_none (by rw [length_decoded_table]; omega),
        List.getElem?_eq_none (by rw [hT]; omega)]
  have hNam : (decoded (encoded x)).Names = x.Names := by
    funext b
    rw [decoded_names, encoded_names x hN' b, namesOf_full _ (hN b)]
  cases x with
  | mk T N =>
    cases hd : decoded (encoded ⟨T, N⟩) with
    | mk T1 N1 =>
      rw [hd] at hTab hNam
      simp only at hTab hNam
      rw [hTab, hNam]

/-- C1: round trip. For every image whose three banks each hold exactly 256 tiles and whose
three name tables each hold exactly 256 bytes, `Encode` writes a byte sequence, and `decode`
of a slice holding these bytes (whatever its spare capacity) succeeds and returns the image
itself. -/
theorem decode_Encode_roundtrip (x : Image) (spare : List Byte)
    (hT : ∀ b, (x.Table b).length = 256) (hN : ∀ b, (x.Names b).length = 256) :
    ∃ bytes, Encode x = .ok bytes ∧ decode ⟨bytes, spare⟩ = .ok x := by
  refine ⟨encoded x, Encode_closed x, ?_⟩
  rw [decode_closed ⟨encoded x, spare⟩ (length_encoded x (fun b => by rw [hN b]))
    (take_signature_encoded x)]
  simp only [decoded_encoded_full x hT hN]

theorem decode_Encode_roundtrip_witness :
    (∀ b, (fullImage.Table b).length = 256) ∧ (∀ b, (fullImage.Names b).length = 256) ∧
      ∃ bytes, Encode fullImage = .ok bytes ∧ decode ⟨bytes, [1, 2, 3]⟩ = .ok fullImage :=
  ⟨fun _ => List.length_replicate _ _, fun _ => List.length_replicate _ _,
    decode_Encode_roundtrip fullImage [1, 2, 3] (fun _ => List.length_replicate _ _)
      (fun _ => List.length_replicate _ _)⟩

/-- C2: output size. For every image whose three name tables each have at most 256 entries,
whatever the number of tiles in each bank, `Encode` writes exactly
`7 + 6144 + 768 + (AddrColorTable1 - AddrSpriteAttrs) + 6144` bytes, which is 14343,
`minFileLength`. -/
theorem Encode_length (x : Image) (hN : ∀ b, (x.Names b).length ≤ 256) :
    ∃ bytes, Encode x = .ok bytes ∧
      bytes.length = 7 + 6144 + 768 + (AddrColorTable1 - AddrSpriteAttrs) + 6144 ∧
      bytes.length = minFileLength ∧ AddrColorTable1 - AddrSpriteAttrs = 1280 :=
  ⟨encoded x, Encode_closed x, length_encoded x hN, length_encoded x hN, rfl⟩

theorem sparseImage_names (b : Fin 3) : (sparseImage.Names b).length ≤ 256 := by
  fin_cases b
  · show ([] : List Byte).length ≤ 256
    decide
  · show (List.replicate 100 (1 : Byte)).length ≤ 256
    exact (List.length_replicate 100 (1 : Byte)).le.trans (by decide)
  · show (List.replicate 256 (2 : Byte)).length ≤ 256
    exact (List.length_replicate 256 (2 : Byte)).le

theorem Encode_length_witness :
    (∀ b, (sparseImage.Names b).length ≤ 256) ∧
      ∃ bytes, Encode sparseImage = .ok bytes ∧
        bytes.length = 7 + 6144 + 768 + (AddrColorTable1 - AddrSpriteAttrs) + 6144 ∧
        bytes.length = minFileLength ∧ AddrColorTable1 - AddrSpriteAttrs = 1280 :=
  ⟨sparseImage_names, Encode_length sparseImage sparseImage_names⟩

/-- C3: the length check of `decode` rejects as too short the inputs longer than
`minFileLength`, not the shorter ones. An input of 14344 bytes, one more than
`minFileLength`, gets the "file is too short" error, and a signed input of 14342 bytes, one
less than `minFileLength`, does not get it: the run panics. -/
theorem decode_length_check_reversed (spare : List Byte) :
    decode ⟨signature ++ List.replicate 14337 0, spare⟩
        = .error (.fileTooShort 14344 minFileLength) ∧
      decode ⟨signature ++ List.replicate 14335 0, spare⟩ = .error .panic := by
  constructor
  · have hl : (ByteSlice.mk (signature ++ List.replicate 14337 0) spare).len = 14344 := by
      simp only [ByteSlice.len, List.length_append, List.length_replicate, signature,
        List.length_cons, List.length_nil]
    have h := decode_tooShort_of_gt ⟨signature ++ List.replicate 14337 0, spare⟩ (by
      rw [hl]
      decide)
    rw [hl] at h
    exact h
  · have hlen : (signature ++ List.replicate 14335 (0 : Byte)).length < 14343 := by
      simp only [List.length_append, List.length_replicate, signature, List.length_cons,
        List.length_nil]
      omega
    have hsig : (signature ++ List.replicate 14335 (0 : Byte)).take 7 = signature :=
      List.take_left' (show signature.length = 7 from rfl)
    exact decode_short_panics ⟨signature ++ List.replicate 14335 0, spare⟩ hsig hlen

/-- C4: truncation is not answered with an error. On the 7 bytes of the signature alone
`decode` passes the length check and the signature check and then panics on the first read,
`content[0]`, of an empty slice; a panic is not a returned error. -/
theorem decode_signature_only_panics (spare : List Byte) :
    decode ⟨signature, spare⟩ = .error .panic ∧ Fault.isError .panic = false :=
  ⟨decode_short_panics ⟨signature, spare⟩ (show signature.take 7 = signature from rfl)
    (show signature.length < 14343 by decide), rfl⟩

/-- C5: signature rejection. For every input of 14343 bytes whose first 7 bytes are not the
signature, `decode` returns the "invalid signature" error, carrying these 7 bytes, and no
image. -/
theorem decode_invalid_signature (c : ByteSlice) (hlen : c.elems.length = 14343)
    (hsig : c.elems.take 7 ≠ signature) :
    decode c = .error (.invalidSignature (c.elems.take 7)) := by
  have hsl : signature.length = 7 := rfl
  unfold decode
  rw [if_neg (by simp only [ByteSlice.len, minFileLength, hlen]; omega)]
  simp only [ByteSlice.sliceTo, hsl, bind, Except.bind]
  rw [ByteSlice.slice_ok c 0 7 (by omega) (by omega)]
  simp only [List.drop_zero, Nat.sub_zero]
  rw [if_pos (fun hc => hsig hc.symm)]

theorem decode_invalid_signature_witness :
    (List.replicate 14343 (0 : Byte)).length = 14343 ∧
      (List.replicate 14343 (0 : Byte)).take 7 ≠ signature ∧
      decode ⟨List.replicate 14343 0, []⟩
        = .error (.invalidSignature ((List.replicate 14343 (0 : Byte)).take 7)) :=
  ⟨List.length_replicate _ _, by rw [List.take_replicate]; decide,
    decode_invalid_signature ⟨List.replicate 14343 0, []⟩ (List.length_replicate _ _)
      (by rw [List.take_replicate]; decide)⟩

theorem blockOf_take (getter : Pattern → Byte) (tiles : List Tile) :
    blockOf getter (tiles.take 256) = blockOf getter tiles := by
  simp only [blockOf, List.take_take, Nat.min_self]

theorem blockOf_truncateBank (getter : Pattern → Byte) (x : Image) (b c : Fin 3) :
    blockOf getter ((truncateBank x b).Table c) = blockOf getter (x.Table c) := by
  by_cases hc : c = b
  · subst hc
    simp only [truncateBank, Function.update_same, blockOf_take]
  · simp only [truncateBank, Function.update_noteq hc]

theorem encoded_truncateBank (x : Image) (b : Fin 3) : encoded (truncateBank x b) = encoded x := by
  simp only [encoded, blockOf_truncateBank]
  rfl

/-- C6: idempotent truncation. For every image and every bank `b` holding more than 256
tiles, `Encode` writes the same bytes as for the image whose bank `b` is cut to its first
256 tiles, and it does so without a fault. -/
theorem Encode_truncates_tiles (x : Image) (b : Fin 3) (h : 256 < (x.Table b).length) :
    Encode x = Encode (truncateBank x b) ∧ ∃ bytes, Encode x = .ok bytes := by
  have _ := h
  rw [Encode_closed, Encode_closed, encoded_truncateBank]
  exact ⟨rfl, _, rfl⟩

theorem Encode_truncates_tiles_witness :
    256 < (sparseImage.Table 2).length ∧
      Encode sparseImage = Encode (truncateBank sparseImage 2) ∧
      ∃ bytes, Encode sparseImage = .ok bytes :=
  ⟨(by decide : 256 < 300).trans_eq (List.length_replicate 300 sampleTile).symm,
    Encode_truncates_tiles sparseImage 2
      ((by decide : 256 < 300).trans_eq (List.length_replicate 300 sampleTile).symm)⟩

/-- C7: zero fill. For every image and every bank `b` holding fewer than 256 tiles, the
bytes that `Encode` writes at slot `t * 8 + p` of bank `b`'s bitmap block (which starts at
offset `7 + b * 2048`) and of bank `b`'s color block (which starts at `colorStart x + b *
2048`) are zero for every tile index `t` from the number of tiles up to 255. -/
theorem Encode_zero_fill (x : Image) (b : Fin 3) (t : Nat) (p : Fin 8)
    (hk : (x.Table b).length < 256) (h1 : (x.Table b).length ≤ t) (h2 : t ≤ 255) :
    ∃ bytes, Encode x = .ok bytes ∧
      bytes[7 + b.val * 2048 + (t * 8 + p.val)]? = some 0 ∧
      bytes[colorStart x + b.val * 2048 + (t * 8 + p.val)]? = some 0 := by
  have _ := hk
  have hlt : 8 * t + p.val < 2048 := by omega
  have hpast : ((x.Table b).take 256).length ≤ (8 * t + p.val) / 8 := by
    simp only [List.length_take]
    omega
  refine ⟨encoded x, Encode_closed x, ?_, ?_⟩
  · rw [show 7 + b.val * 2048 + (t * 8 + p.val) = 7 + (2048 * b.val + (8 * t + p.val)) by omega,
      encoded_bitmap x b _ hlt, tileByte_past _ _ _ hpast]
  · rw [show colorStart x + b.val * 2048 + (t * 8 + p.val)
        = colorStart x + (2048 * b.val + (8 * t + p.val)) by omega,
      encoded_color_at x b _ hlt, tileByte_past _ _ _ hpast]

theorem Encode_zero_fill_witness :
    (sparseImage.Table 1).length < 256 ∧ (sparseImage.Table 1).length ≤ 10 ∧ 10 ≤ 255 ∧
      ∃ bytes, Encode sparseImage = .ok bytes ∧
        bytes[7 + (1 : Fin 3).val * 2048 + (10 * 8 + (5 : Fin 8).val)]? = some 0 ∧
        bytes[colorStart sparseImage + (1 : Fin 3).val * 2048 + (10 * 8 + (5 : Fin 8).val)]?
          = some 0 :=
  ⟨(List.length_replicate 10 sampleTile).trans_lt (by decide),
    (List.length_replicate 10 sampleTile).le, by decide,
    Encode_zero_fill sparseImage 1 10 5
      ((List.length_replicate 10 sampleTile).trans_lt (by decide))
      (List.length_replicate 10 sampleTile).le (by decide)⟩

theorem getD_signature_zeros (n k : Nat) :
    (signature ++ List.replicate n (0 : Byte)).getD (7 + k) 0 = 0 := by
  rw [List.getD_eq_getElem?_getD,
    getElem?_append_at signature _ 7 k (show signature.length = 7 from rfl),
    List.getElem?_replicate]
  split <;> rfl

theorem decoded_signature_zeros :
    decoded (signature ++ List.replicate 14336 (0 : Byte))
      = ⟨fun _ => List.replicate 256 zeroTile, fun _ => List.replicate 256 0⟩ := by
  have hTab : (decoded (signature ++ List.replicate 14336 (0 : Byte))).Table
      = fun _ => List.replicate 256 zeroTile := by
    funext b
    apply List.ext_getElem?
    intro n
    by_cases hn : n < 256
    · rw [decoded_tile _ b n hn, List.getElem?_replicate, if_pos hn]
      congr 1
      funext p
      rw [show 8199 + (2048 * b.val + 8 * n + p.val)
        = 7 + (8192 + (2048 * b.val + 8 * n + p.val)) by omega,
        getD_signature_zeros, getD_signature_zeros]
      rfl
    · rw [List.getElem?_eq_none (by rw [length_decoded_table]; omega),
        List.getElem?_eq_none (by rw [List.length_replicate]; omega)]
  have hNam : (decoded (signature ++ List.replicate 14336 (0 : Byte))).Names
      = fun _ => List.replicate 256 0 := by
    funext b
    rw [decoded_names,
      show 6151 + 256 * b.val = 7 + (6144 + 256 * b.val) by omega,
      drop_append_at signature _ 7 _ (show signature.length = 7 from rfl),
      List.drop_replicate, List.take_replicate]
    congr 1
    have := b.isLt
    omega
  cases hd : decoded (signature ++ List.replicate 14336 (0 : Byte)) with
  | mk T1 N1 =>
    rw [hd] at hTab hNam
    simp only at hTab hNam
    rw [hTab, hNam]

/-- C8: concrete scenario. The input of `minFileLength` bytes made of the signature followed
by 14336 zero bytes is decoded without a fault into the image whose three banks hold 256
tiles with every `Bitmap` and `Color` zero and whose three name tables hold 256 zero bytes. -/
theorem decode_zero_container (spare : List Byte) :
    (signature ++ List.replicate 14336 (0 : Byte)).length = minFileLength ∧
      decode ⟨signature ++ List.replicate 14336 0, spare⟩
        = .ok ⟨fun _ => List.replicate 256 zeroTile, fun _ => List.replicate 256 0⟩ := by
  have hlen : (signature ++ List.replicate 14336 (0 : Byte)).length = 14343 := by
    simp only [List.length_append, List.length_replicate, signature, List.length_cons,
      List.length_nil]
  refine ⟨hlen, ?_⟩
  rw [decode_closed ⟨signature ++ List.replicate 14336 0, spare⟩ hlen
    (List.take_left' (show signature.length = 7 from rfl))]
  simp only [decoded_signature_zeros]

theorem getElem?_eq_some_getD (l : List Byte) (i : Nat) (h : i < l.length) :
    l[i]? = some (l.getD i 0) := by
  rw [List.getD_eq_getElem?_getD, List.getElem?_eq_getElem h]
  rfl

/-- C9: layout of what `Encode` writes. For every image the output starts with the 7
signature bytes; for every bank `b`, tile index `t` below both the number of tiles of the
bank and 256, and pattern index `p`, the byte at offset `7 + b * 2048 + t * 8 + p` is the
`Bitmap` of pattern `p` of tile `t` of bank `b`; and when every name table has exactly 256
entries the byte at offset
`7 + 6144 + 768 + (AddrColorTable1 - AddrSpriteAttrs) + b * 2048 + t * 8 + p` is its
`Color`. -/
theorem Encode_layout (x : Image) :
    ∃ bytes, Encode x = .ok bytes ∧ bytes.take 7 = signature ∧
      ∀ (b : Fin 3) (t : Nat) (p : Fin 8), t < min (x.Table b).length 256 →
        ∃ tile, (x.Table b)[t]? = some tile ∧
          bytes[7 + b.val * 2048 + t * 8 + p.val]? = some (tile p).Bitmap ∧
          ((∀ c, (x.Names c).length = 256) →
            bytes[7 + 6144 + 768 + (AddrColorTable1 - AddrSpriteAttrs) + b.val * 2048 + t * 8
              + p.val]? = some (tile p).Color) := by
  refine ⟨encoded x, Encode_closed x, take_signature_encoded x, ?_⟩
  intro b t p ht
  have htl : t < (x.Table b).length := by omega
  have ht' : t < ((x.Table b).take 256).length := by
    simp only [List.length_take]
    omega
  have hk : 8 * t + p.val < 2048 := by omega
  have htake : ((x.Table b).take 256)[t] = (x.Table b)[t] := by
    simp only [List.getElem_take]
  refine ⟨(x.Table b)[t], List.getElem?_eq_getElem htl, ?_, ?_⟩
  · rw [show 7 + b.val * 2048 + t * 8 + p.val = 7 + (2048 * b.val + (8 * t + p.val)) by omega,
      encoded_bitmap x b _ hk, tileByte_slot _ _ t p ht', htake]
  · intro hN
    rw [show 7 + 6144 + 768 + (AddrColorTable1 - AddrSpriteAttrs) + b.val * 2048 + t * 8 + p.val
        = 8199 + (2048 * b.val + (8 * t + p.val)) by
          simp only [AddrColorTable1, AddrSpriteAttrs]
          omega,
      encoded_color x (fun c => by rw [hN c]) b _ hk, tileByte_slot _ _ t p ht', htake]

theorem Encode_layout_witness :
    ∃ bytes, Encode fullImage = .ok bytes ∧ bytes.take 7 = signature ∧
      bytes[7 + 1 * 2048 + 3 * 8 + 2]? = some ⟨18, by decide⟩ ∧
      bytes[7 + 6144 + 768 + 1280 + 1 * 2048 + 3 * 8 + 2]? = some ⟨34, by decide⟩ := by
  obtain ⟨bytes, henc, hsig, hlay⟩ := Encode_layout fullImage
  have h3 : 3 < min (fullImage.Table 1).length 256 := by
    have : (fullImage.Table 1).length = 256 := List.length_replicate _ _
    rw [this]
    decide
  obtain ⟨tile, htile, hb, hc⟩ := hlay 1 3 2 h3
  have hN : ∀ c, (fullImage.Names c).length = 256 := fun _ => List.length_replicate _ _
  have htile' : tile = sampleTile := by
    have h1 : (fullImage.Table 1)[3]? = some sampleTile := by
      show (List.replicate 256 sampleTile)[3]? = some sampleTile
      exact List.getElem?_replicate_of_lt (by decide)
    rw [h1] at htile
    exact (Option.some.inj htile).symm
  subst htile'
  exact ⟨bytes, henc, hsig, hb, hc hN⟩

/-- C10: layout that `decode` reads. Whenever `decode` succeeds on `c`, for every bank `b`,
tile `t < 256` and pattern `p` the result has a tile `t` in bank `b` whose pattern `p` has
`Bitmap = c[7 + (b * 256 + t) * 8 + p]` and
`Color = c[7 + 6144 + 768 + (AddrColorTable1 - AddrSpriteAttrs) + (b * 256 + t) * 8 + p]`,
and for every `k < 256` the name `k` of bank `b` is `c[7 + 6144 + b * 256 + k]`. -/
theorem decode_layout (c : ByteSlice) (img : Image) (b : Fin 3) (t k : Nat) (p : Fin 8)
    (h : decode c = .ok img) (ht : t < 256) (hk : k < 256) :
    ∃ tile name, (img.Table b)[t]? = some tile ∧
      c.elems[7 + (b.val * 256 + t) * 8 + p.val]? = some (tile p).Bitmap ∧
      c.elems[7 + 6144 + 768 + (AddrColorTable1 - AddrSpriteAttrs) + (b.val * 256 + t) * 8
        + p.val]? = some (tile p).Color ∧
      (img.Names b)[k]? = some name ∧ c.elems[7 + 6144 + b.val * 256 + k]? = some name := by
  obtain ⟨hlen, hsig⟩ := decode_ok_shape c img h
  rw [decode_closed c hlen hsig] at h
  simp only [Except.ok.injEq] at h
  subst h
  have hb := b.isLt
  have hp := p.isLt
  refine ⟨_, c.elems.getD (6151 + 256 * b.val + k) 0, decoded_tile c.elems b t ht, ?_, ?_, ?_, ?_⟩
  · rw [show 7 + (b.val * 256 + t) * 8 + p.val = 7 + (2048 * b.val + 8 * t + p.val) by omega]
    exact getElem?_eq_some_getD _ _ (by omega)
  · rw [show 7 + 6144 + 768 + (AddrColorTable1 - AddrSpriteAttrs) + (b.val * 256 + t) * 8 + p.val
        = 8199 + (2048 * b.val + 8 * t + p.val) by
          simp only [AddrColorTable1, AddrSpriteAttrs]
          omega]
    exact getElem?_eq_some_getD _ _ (by omega)
  · rw [decoded_names, List.getElem?_take_of_lt hk, List.getElem?_drop]
    exact getElem?_eq_some_getD _ _ (by omega)
  · rw [show 7 + 6144 + b.val * 256 + k = 6151 + 256 * b.val + k by omega]
    exact getElem?_eq_some_getD _ _ (by omega)

theorem length_sampleContainer : sampleContainer.elems.length = 14343 := by
  simp only [sampleContainer, List.length_append, List.length_replicate, signature,
    List.length_cons, List.length_nil]

theorem decode_sampleContainer :
    decode sampleContainer = .ok (decoded sampleContainer.elems) :=
  decode_closed sampleContainer length_sampleContainer
    (List.take_left' (show signature.length = 7 from rfl))

theorem decode_layout_witness :
    decode sampleContainer = .ok (decoded sampleContainer.elems) ∧ 5 < 256 ∧ 9 < 256 ∧
      ∃ tile name, ((decoded sampleContainer.elems).Table 2)[5]? = some tile ∧
        sampleContainer.elems[7 + ((2 : Fin 3).val * 256 + 5) * 8 + (3 : Fin 8).val]?
          = some (tile 3).Bitmap ∧
        sampleContainer.elems[7 + 6144 + 768 + (AddrColorTable1 - AddrSpriteAttrs)
          + ((2 : Fin 3).val * 256 + 5) * 8 + (3 : Fin 8).val]? = some (tile 3).Color ∧
        ((decoded sampleContainer.elems).Names 2)[9]? = some name ∧
        sampleContainer.elems[7 + 6144 + (2 : Fin 3).val * 256 + 9]? = some name :=
  ⟨decode_sampleContainer, by decide, by decide,
    decode_layout sampleContainer (decoded sampleContainer.elems) 2 5 9 3
      decode_sampleContainer (by decide) (by decide)⟩

/-! ## Name data and the reserved region in what `Encode` writes -/

theorem namesStart_zero (x : Image) : namesStart x 0 = 7 + (2048 + (2048 + (2048 + 0))) := by
  simp [namesStart]

theorem namesStart_one (x : Image) :
    namesStart x 1 = 7 + (2048 + (2048 + (2048 + ((namesOf (x.Names 0)).length + 0)))) := by
  simp [namesStart]
  omega

theorem namesStart_two (x : Image) :
    namesStart x 2 = 7 + (2048 + (2048 + (2048 + ((namesOf (x.Names 0)).length +
      ((namesOf (x.Names 1)).length + 0))))) := by
  simp [namesStart]
  omega

/-- The name data of bank `b` in what `Encode` writes, for name tables of any length. -/
theorem encoded_names_at (x : Image) (b : Fin 3) :
    ((encoded x).drop (namesStart x b)).take (namesOf (x.Names b)).length
      = namesOf (x.Names b) := by
  simp only [encoded]
  fin_cases b
  · show (List.drop (namesStart x 0) _).take (namesOf (x.Names 0)).length = namesOf (x.Names 0)
    rw [namesStart_zero, drop_append_at signature _ 7 _ rfl,
      drop_append_at _ _ 2048 _ (length_blockOf _ _),
      drop_append_at _ _ 2048 _ (length_blockOf _ _),
      drop_append_at _ _ 2048 _ (length_blockOf _ _), List.drop_zero]
    exact List.take_left' rfl
  · show (List.drop (namesStart x 1) _).take (namesOf (x.Names 1)).length = namesOf (x.Names 1)
    rw [namesStart_one, drop_append_at signature _ 7 _ rfl,
      drop_append_at _ _ 2048 _ (length_blockOf _ _),
      drop_append_at _ _ 2048 _ (length_blockOf _ _),
      drop_append_at _ _ 2048 _ (length_blockOf _ _),
      drop_append_at _ _ _ _ rfl, List.drop_zero]
    exact List.take_left' rfl
  · show (List.drop (namesStart x 2) _).take (namesOf (x.Names 2)).length = namesOf (x.Names 2)
    rw [namesStart_two, drop_append_at signature _ 7 _ rfl,
      drop_append_at _ _ 2048 _ (length_blockOf _ _),
      drop_append_at _ _ 2048 _ (length_blockOf _ _),
      drop_append_at _ _ 2048 _ (length_blockOf _ _),
      drop_append_at _ _ _ _ rfl, drop_append_at _ _ _ _ rfl, List.drop_zero]
    exact List.take_left' rfl

theorem namesOf_long (names : List Byte) (h : 256 ≤ names.length) : namesOf names = names := by
  have h0 : 256 - names.length = 0 := by omega
  simp only [namesOf, h0, List.replicate_zero, List.append_nil]

/-- The reserved bytes in what `Encode` writes, when no name table has more than 256
entries. -/
theorem encoded_reserved (x : Image) (h : ∀ b, (x.Names b).length ≤ 256) (k : Nat)
    (hk : k < 1280) : (encoded x)[6919 + k]? = some 0 := by
  simp only [encoded]
  rw [show 6919 + k = 7 + (2048 + (2048 + (2048 + (256 + (256 + (256 + k)))))) by omega,
    getElem?_append_at signature _ 7 _ (show signature.length = 7 from rfl),
    getElem?_append_at _ _ 2048 _ (length_blockOf _ _),
    getElem?_append_at _ _ 2048 _ (length_blockOf _ _),
    getElem?_append_at _ _ 2048 _ (length_blockOf _ _),
    getElem?_append_at _ _ 256 _ (length_namesOf _ (h _)),
    getElem?_append_at _ _ 256 _ (length_namesOf _ (h _)),
    getElem?_append_at _ _ 256 _ (length_namesOf _ (h _)),
    getElem?_append_lt _ _ _ (by rw [List.length_replicate]; exact hk),
    List.getElem?_replicate_of_lt hk]

/-- C11: name padding. For every image and every bank `b` whose name table has `n <= 256`
entries, `writeNames` appends to the writer the `n` name bytes followed by `256 - n` zero
bytes, 256 bytes in all, and these are the 256 bytes of what `Encode` writes from the offset
`namesStart x b` on, where the name data of bank `b` starts. -/
theorem Encode_pads_names (x : Image) (b : Fin 3) (hn : (x.Names b).length ≤ 256) :
    (∀ out, writeNames out (x.Names b) true
        = out ++ (x.Names b ++ List.replicate (256 - (x.Names b).length) 0)) ∧
      (x.Names b ++ List.replicate (256 - (x.Names b).length) (0 : Byte)).length = 256 ∧
      ∃ bytes, Encode x = .ok bytes ∧
        (bytes.drop (namesStart x b)).take 256
          = x.Names b ++ List.replicate (256 - (x.Names b).length) 0 := by
  refine ⟨fun out => writeNames_closed out _, length_namesOf _ hn, encoded x,
    Encode_closed x, ?_⟩
  have h := encoded_names_at x b
  rw [length_namesOf _ hn] at h
  exact h

theorem Encode_pads_names_witness :
    (sparseImage.Names 1).length ≤ 256 ∧
      (∀ out, writeNames out (sparseImage.Names 1) true
        = out ++ (sparseImage.Names 1 ++
            List.replicate (256 - (sparseImage.Names 1).length) 0)) ∧
      (sparseImage.Names 1 ++
        List.replicate (256 - (sparseImage.Names 1).length) (0 : Byte)).length = 256 ∧
      ∃ bytes, Encode sparseImage = .ok bytes ∧
        (bytes.drop (namesStart sparseImage 1)).take 256
          = sparseImage.Names 1 ++ List.replicate (256 - (sparseImage.Names 1).length) 0 :=
  ⟨sparseImage_names 1, Encode_pads_names sparseImage 1 (sparseImage_names 1)⟩

/-- C12: names are never cut. For every image and every bank `b` whose name table has
`n > 256` entries, `writeNames` appends to the writer exactly the `n` name bytes, and these
are the `n` bytes of what `Encode` writes from the offset `namesStart x b` on, where the name
data of bank `b` starts. -/
theorem Encode_keeps_long_names (x : Image) (b : Fin 3) (hn : 256 < (x.Names b).length) :
    (∀ out, writeNames out (x.Names b) true = out ++ x.Names b) ∧
      (∀ out, (writeNames out (x.Names b) true).length = out.length + (x.Names b).length) ∧
      ∃ bytes, Encode x = .ok bytes ∧
        (bytes.drop (namesStart x b)).take (x.Names b).length = x.Names b := by
  have hno : namesOf (x.Names b) = x.Names b := namesOf_long _ (by omega)
  refine ⟨fun out => ?_, fun out => ?_, encoded x, Encode_closed x, ?_⟩
  · rw [writeNames_closed, hno]
  · rw [writeNames_closed, hno, List.length_append]
  · have h := encoded_names_at x b
    rw [hno] at h
    exact h

theorem longNamesImage_names : 256 < (longNamesImage.Names 0).length :=
  (by decide : 256 < 300).trans_eq (List.length_replicate 300 (4 : Byte)).symm

theorem Encode_keeps_long_names_witness :
    256 < (longNamesImage.Names 0).length ∧
      (∀ out, writeNames out (longNamesImage.Names 0) true = out ++ longNamesImage.Names 0) ∧
      (∀ out, (writeNames out (longNamesImage.Names 0) true).length
        = out.length + (longNamesImage.Names 0).length) ∧
      ∃ bytes, Encode longNamesImage = .ok bytes ∧
        (bytes.drop (namesStart longNamesImage 0)).take (longNamesImage.Names 0).length
          = longNamesImage.Names 0 :=
  ⟨longNamesImage_names, Encode_keeps_long_names longNamesImage 0 longNamesImage_names⟩

/-- C13: the reserved region on encode. For every image whose name tables have at most 256
entries each, every byte that `Encode` writes at an offset from `7 + 6144 + 768` up to but
excluding `7 + 6144 + 768 + (AddrColorTable1 - AddrSpriteAttrs)` is zero, and
`AddrColorTable1 - AddrSpriteAttrs` is 1280. -/
theorem Encode_reserved_zero (x : Image) (i : Nat) (hN : ∀ b, (x.Names b).length ≤ 256)
    (h1 : 7 + 6144 + 768 ≤ i)
    (h2 : i < 7 + 6144 + 768 + (AddrColorTable1 - AddrSpriteAttrs)) :
    ∃ bytes, Encode x = .ok bytes ∧ bytes[i]? = some 0 ∧
      AddrColorTable1 - AddrSpriteAttrs = 1280 := by
  have h3 : AddrColorTable1 - AddrSpriteAttrs = 1280 := rfl
  rw [h3] at h2
  refine ⟨encoded x, Encode_closed x, ?_, rfl⟩
  have hk := encoded_reserved x hN (i - 6919) (by omega)
  rw [show 6919 + (i - 6919) = i by omega] at hk
  exact hk

theorem Encode_reserved_zero_witness :
    (∀ b, (sparseImage.Names b).length ≤ 256) ∧ 7 + 6144 + 768 ≤ 7000 ∧
      7000 < 7 + 6144 + 768 + (AddrColorTable1 - AddrSpriteAttrs) ∧
      ∃ bytes, Encode sparseImage = .ok bytes ∧ bytes[7000]? = some 0 ∧
        AddrColorTable1 - AddrSpriteAttrs = 1280 :=
  ⟨sparseImage_names, by decide, by decide,
    Encode_reserved_zero sparseImage 7000 sparseImage_names (by decide) (by decide)⟩

/-! ## The acceptance set of `decode` -/

theorem take_signature_length (l : List Byte) (h : l.take 7 = signature) : 7 ≤ l.length := by
  have := congrArg List.length h
  simp only [List.length_take, signature, List.length_cons, List.length_nil] at this
  omega

theorem length_decoded_names (l : List Byte) (h : l.length = 14343) (b : Fin 3) :
    ((decoded l).Names b).length = 256 := by
  have hb := b.isLt
  rw [decoded_names, List.length_take, List.length_drop]
  omega

theorem decode_ok_iff (c : ByteSlice) :
    (∃ img, decode c = .ok img) ↔ (c.elems.length = 14343 ∧ c.elems.take 7 = signature) := by
  constructor
  · rintro ⟨img, h⟩
    exact decode_ok_shape c img h
  · rintro ⟨hlen, hsig⟩
    exact ⟨_, decode_closed c hlen hsig⟩

theorem decode_error_of_not_shape (c : ByteSlice)
    (h : ¬ (c.elems.length = 14343 ∧ c.elems.take 7 = signature)) :
    ∃ e, decode c = .error e := by
  cases hd : decode c with
  | ok img => exact absurd (decode_ok_shape c img hd) h
  | error e => exact ⟨e, rfl⟩

/-- C15: the acceptance set of `decode`. `decode` returns an image exactly when the input
has 14343 bytes and its first 7 bytes are the signature, and every image it returns has 256
tiles in each of the 3 banks and 256 bytes in each of the 3 name tables. -/
theorem decode_accepts_iff (c : ByteSlice) :
    ((∃ img, decode c = .ok img) ↔ (c.elems.length = 14343 ∧ c.elems.take 7 = signature)) ∧
      ∀ img, decode c = .ok img →
        ∀ b, (img.Table b).length = 256 ∧ (img.Names b).length = 256 := by
  refine ⟨decode_ok_iff c, ?_⟩
  intro img h b
  obtain ⟨hlen, hsig⟩ := decode_ok_shape c img h
  rw [decode_closed c hlen hsig] at h
  simp only [Except.ok.injEq] at h
  subst h
  exact ⟨length_decoded_table _ b, length_decoded_names _ hlen b⟩

theorem decode_accepts_iff_witness :
    (∃ img, decode sampleContainer = .ok img) ∧
      sampleContainer.elems.length = 14343 ∧ sampleContainer.elems.take 7 = signature ∧
      ∀ b, ((decoded sampleContainer.elems).Table b).length = 256 ∧
        ((decoded sampleContainer.elems).Names b).length = 256 :=
  ⟨⟨_, decode_sampleContainer⟩,
    ((decode_accepts_iff sampleContainer).1.mp ⟨_, decode_sampleContainer⟩).1,
    ((decode_accepts_iff sampleContainer).1.mp ⟨_, decode_sampleContainer⟩).2,
    (decode_accepts_iff sampleContainer).2 _ decode_sampleContainer⟩

/-! ## The reserved region is not read -/

theorem getD_congr (l1 l2 : List Byte) (i : Nat) (h : l1[i]? = l2[i]?) :
    l1.getD i 0 = l2.getD i 0 := by
  rw [List.getD_eq_getElem?_getD, List.getD_eq_getElem?_getD, h]

theorem decoded_congr (l1 l2 : List Byte)
    (h : ∀ i, i < 6919 ∨ 8199 ≤ i → l1[i]? = l2[i]?) : decoded l1 = decoded l2 := by
  have hTab : (decoded l1).Table = (decoded l2).Table := by
    funext b
    have hb := b.isLt
    apply List.ext_getElem?
    intro n
    by_cases hn : n < 256
    · rw [decoded_tile l1 b n hn, decoded_tile l2 b n hn]
      congr 1
      funext p
      have hp := p.isLt
      rw [getD_congr l1 l2 _ (h _ (Or.inl (by omega))),
        getD_congr l1 l2 _ (h _ (Or.inr (by omega)))]
    · rw [List.getElem?_eq_none (by rw [length_decoded_table]; omega),
        List.getElem?_eq_none (by rw [length_decoded_table]; omega)]
  have hNam : (decoded l1).Names = (decoded l2).Names := by
    funext b
    have hb := b.isLt
    rw [decoded_names, decoded_names]
    apply List.ext_getElem?
    intro n
    by_cases hn : n < 256
    · rw [List.getElem?_take_of_lt hn, List.getElem?_take_of_lt hn, List.getElem?_drop,
        List.getElem?_drop]
      exact h _ (Or.inl (by omega))
    · rw [List.getElem?_take_eq_none (by omega), List.getElem?_take_eq_none (by omega)]
  cases h1 : decoded l1 with
  | mk T1 N1 =>
    cases h2 : decoded l2 with
    | mk T2 N2 =>
      rw [h1, h2] at hTab hNam
      simp only at hTab hNam
      rw [hTab, hNam]

theorem take_congr (l1 l2 : List Byte) (n : Nat) (h : ∀ i, i < n → l1[i]? = l2[i]?) :
    l1.take n = l2.take n := by
  apply List.ext_getElem?
  intro i
  by_cases hi : i < n
  · rw [List.getElem?_take_of_lt hi, List.getElem?_take_of_lt hi]
    exact h i hi
  · rw [List.getElem?_take_eq_none (by omega), List.getElem?_take_eq_none (by omega)]

/-- C14: the reserved region is ignored on decode. For every two inputs of equal length
that agree at every offset outside the reserved region (from `7 + 6144 + 768` up to but
excluding `7 + 6144 + 768 + (AddrColorTable1 - AddrSpriteAttrs)`), `decode` either returns
the same image for both or fails on both. -/
theorem decode_ignores_reserved (l1 l2 s1 s2 : List Byte) (hlen : l1.length = l2.length)
    (hsame : ∀ i, i < 7 + 6144 + 768 ∨
      7 + 6144 + 768 + (AddrColorTable1 - AddrSpriteAttrs) ≤ i → l1[i]? = l2[i]?) :
    (∃ img, decode ⟨l1, s1⟩ = .ok img ∧ decode ⟨l2, s2⟩ = .ok img) ∨
      (∃ e1 e2, decode ⟨l1, s1⟩ = .error e1 ∧ decode ⟨l2, s2⟩ = .error e2) := by
  have h3 : AddrColorTable1 - AddrSpriteAttrs = 1280 := rfl
  rw [h3] at hsame
  have htake : l1.take 7 = l2.take 7 :=
    take_congr l1 l2 7 (fun i hi => hsame i (Or.inl (by omega)))
  by_cases hshape : l1.length = 14343 ∧ l1.take 7 = signature
  · left
    have hshape2 : l2.length = 14343 ∧ l2.take 7 = signature :=
      ⟨by rw [← hlen]; exact hshape.1, by rw [← htake]; exact hshape.2⟩
    refine ⟨decoded l1, decode_closed ⟨l1, s1⟩ hshape.1 hshape.2, ?_⟩
    rw [decode_closed ⟨l2, s2⟩ hshape2.1 hshape2.2,
      decoded_congr l1 l2 (fun i hi => hsame i (by omega))]
  · right
    have hshape2 : ¬ (l2.length = 14343 ∧ l2.take 7 = signature) := by
      rw [← hlen, ← htake]
      exact hshape
    obtain ⟨e1, he1⟩ := decode_error_of_not_shape ⟨l1, s1⟩ hshape
    obtain ⟨e2, he2⟩ := decode_error_of_not_shape ⟨l2, s2⟩ hshape2
    exact ⟨e1, e2, he1, he2⟩

theorem getElem?_append_cons_ne (pre post : List Byte) (a b : Byte) (i : Nat)
    (h : i ≠ pre.length) : (pre ++ a :: post)[i]? = (pre ++ b :: post)[i]? := by
  by_cases hi : i < pre.length
  · rw [List.getElem?_append_left hi, List.getElem?_append_left hi]
  · rw [List.getElem?_append_right (by omega), List.getElem?_append_right (by omega)]
    obtain ⟨k, hk⟩ : ∃ k, i - pre.length = k + 1 := ⟨i - pre.length - 1, by omega⟩
    rw [hk, List.getElem?_cons_succ, List.getElem?_cons_succ]

theorem length_containerA_head :
    (signature ++ List.replicate 6912 (7 : Byte)).length = 6919 := by
  simp only [List.length_append, List.length_replicate, signature, List.length_cons,
    List.length_nil]

theorem containerA_containerB_length : containerA.length = containerB.length := by
  simp only [containerA, containerB, List.length_append, List.length_cons]

theorem containerA_containerB_same (i : Nat)
    (h : i < 7 + 6144 + 768 ∨ 7 + 6144 + 768 + (AddrColorTable1 - AddrSpriteAttrs) ≤ i) :
    containerA[i]? = containerB[i]? := by
  have h3 : AddrColorTable1 - AddrSpriteAttrs = 1280 := rfl
  rw [h3] at h
  exact getElem?_append_cons_ne _ _ _ _ i (by rw [length_containerA_head]; omega)

theorem decode_ignores_reserved_witness :
    containerA.length = containerB.length ∧
      (∀ i, i < 7 + 6144 + 768 ∨ 7 + 6144 + 768 + (AddrColorTable1 - AddrSpriteAttrs) ≤ i →
        containerA[i]? = containerB[i]?) ∧
      ((∃ img, decode ⟨containerA, []⟩ = .ok img ∧ decode ⟨containerB, [0]⟩ = .ok img) ∨
        (∃ e1 e2, decode ⟨containerA, []⟩ = .error e1 ∧
          decode ⟨containerB, [0]⟩ = .error e2)) :=
  ⟨containerA_containerB_length, containerA_containerB_same,
    decode_ignores_reserved containerA containerB [] [0] containerA_containerB_length
      containerA_containerB_same⟩

/-! ## Round trips -/

theorem decoded_encoded_norm (x : Image) (hN : ∀ b, (x.Names b).length ≤ 256) :
    decoded (encoded x) = norm x := by
  have hTab : (decoded (encoded x)).Table = (norm x).Table := by
    funext b
    apply List.ext_getElem?
    intro n
    have hlen : ((norm x).Table b).length = 256 := by
      simp only [norm, List.length_append, List.length_replicate, List.length_take]
      omega
    by_cases hn : n < 256
    · rw [decoded_encoded_table x hN b n hn]
      by_cases hm : n < ((x.Table b).take 256).length
      · have hr : ((norm x).Table b)[n]? = some (((x.Table b).take 256)[n]) := by
          simp only [norm]
          rw [List.getElem?_append_left hm, List.getElem?_eq_getElem hm]
        rw [hr]
        congr 1
        funext p
        rw [tileByte_slot _ _ n p hm, tileByte_slot _ _ n p hm]
      · have hr : ((norm x).Table b)[n]? = some zeroTile := by
          simp only [norm]
          rw [List.getElem?_append_right (by omega),
            List.getElem?_replicate_of_lt (by omega)]
        rw [hr]
        congr 1
        funext p
        have hp := p.isLt
        rw [tileByte_past _ _ _ (by omega), tileByte_past _ _ _ (by omega)]
        rfl
    · rw [List.getElem?_eq_none (by rw [length_decoded_table]; omega),
        List.getElem?_eq_none (by rw [hlen]; omega)]
  have hNam : (decoded (encoded x)).Names = (norm x).Names := by
    funext b
    rw [decoded_names, encoded_names x hN b]
    rfl
  cases h1 : decoded (encoded x) with
  | mk T1 N1 =>
    cases h2 : norm x with
    | mk T2 N2 =>
      rw [h1, h2] at hTab hNam
      simp only at hTab hNam
      rw [hTab, hNam]

/-- C16: the normalising round trip. For every image whose name tables have at most 256
entries each, whatever the number of tiles per bank, `Encode` writes a byte sequence and
`decode` of it succeeds and returns `norm x`: each bank cut to its first 256 tiles and padded
to 256 tiles with all-zero tiles, each name table padded with zero bytes to 256 entries. -/
theorem decode_Encode_norm (x : Image) (spare : List Byte)
    (hN : ∀ b, (x.Names b).length ≤ 256) :
    ∃ bytes, Encode x = .ok bytes ∧ decode ⟨bytes, spare⟩ = .ok (norm x) := by
  refine ⟨encoded x, Encode_closed x, ?_⟩
  rw [decode_closed ⟨encoded x, spare⟩ (length_encoded x hN) (take_signature_encoded x),
    decoded_encoded_norm x hN]

theorem decode_Encode_norm_witness :
    (∀ b, (sparseImage.Names b).length ≤ 256) ∧
      ∃ bytes, Encode sparseImage = .ok bytes ∧
        decode ⟨bytes, [5, 6]⟩ = .ok (norm sparseImage) :=
  ⟨sparseImage_names, decode_Encode_norm sparseImage [5, 6] sparseImage_names⟩

theorem tileByte_decoded (l : List Byte) (b : Fin 3) (k : Nat) (hk : k < 2048) :
    tileByte Pattern.Bitmap (((decoded l).Table b).take 256) k
        = l.getD (7 + (2048 * b.val + k)) 0 ∧
      tileByte Pattern.Color (((decoded l).Table b).take 256) k
        = l.getD (8199 + (2048 * b.val + k)) 0 := by
  have ht : ((decoded l).Table b).take 256 = (decoded l).Table b :=
    List.take_of_length_le (by rw [length_decoded_table])
  have hk8 : 2048 * b.val + 8 * (k / 8) + k % 8 = 2048 * b.val + k := by omega
  constructor
  · simp only [tileByte, ht, decoded_tile l b (k / 8) (by omega), hk8]
  · simp only [tileByte, ht, decoded_tile l b (k / 8) (by omega), hk8]

/-- The name byte `k` of bank `b` in what `Encode` writes, when no name table has more than
256 entries. -/
theorem encoded_name_at (x : Image) (h : ∀ b, (x.Names b).length ≤ 256) (b : Fin 3)
    (k : Nat) (hk : k < 256) :
    (encoded x)[6151 + 256 * b.val + k]? = (namesOf (x.Names b))[k]? := by
  rw [← encoded_names x h b, List.getElem?_take_of_lt hk, List.getElem?_drop]

theorem encoded_decoded_outside (l : List Byte) (hlen : l.length = 14343)
    (hsig : l.take 7 = signature) (i : Nat) (hi : i < 6919 ∨ 8199 ≤ i) :
    (encoded (decoded l))[i]? = l[i]? := by
  have hN : ∀ b, ((decoded l).Names b).length ≤ 256 := fun b => by
    rw [length_decoded_names l hlen b]
  by_cases h7 : i < 7
  · have h1 : (encoded (decoded l))[i]? = signature[i]? := by
      simp only [encoded]
      exact getElem?_append_lt _ _ _ h7
    rw [h1, ← hsig, List.getElem?_take_of_lt h7]
  by_cases hbm : i < 6151
  · have hb : (i - 7) / 2048 < 3 := by omega
    have hk : (i - 7) % 2048 < 2048 := Nat.mod_lt _ (by decide)
    have hi' : 7 + (2048 * ((i - 7) / 2048) + (i - 7) % 2048) = i := by omega
    have h1 := encoded_bitmap (decoded l) ⟨(i - 7) / 2048, hb⟩ ((i - 7) % 2048) hk
    rw [(tileByte_decoded l ⟨(i - 7) / 2048, hb⟩ _ hk).1] at h1
    simp only [hi'] at h1
    rw [h1, getElem?_eq_some_getD l i (by omega)]
  by_cases hnm : i < 6919
  · have hb : (i - 6151) / 256 < 3 := by omega
    have hk : (i - 6151) % 256 < 256 := Nat.mod_lt _ (by decide)
    have hi' : 6151 + 256 * ((i - 6151) / 256) + (i - 6151) % 256 = i := by omega
    have h1 := encoded_name_at (decoded l) hN ⟨(i - 6151) / 256, hb⟩ ((i - 6151) % 256) hk
    rw [namesOf_full _ (length_decoded_names l hlen _), decoded_names,
      List.getElem?_take_of_lt hk, List.getElem?_drop] at h1
    simp only [hi'] at h1
    exact h1
  by_cases hcl : i < 14343
  · have hb : (i - 8199) / 2048 < 3 := by omega
    have hk : (i - 8199) % 2048 < 2048 := Nat.mod_lt _ (by decide)
    have hi' : 8199 + (2048 * ((i - 8199) / 2048) + (i - 8199) % 2048) = i := by omega
    have h1 := encoded_color (decoded l) hN ⟨(i - 8199) / 2048, hb⟩ ((i - 8199) % 2048) hk
    rw [(tileByte_decoded l ⟨(i - 8199) / 2048, hb⟩ _ hk).2] at h1
    simp only [hi'] at h1
    rw [h1, getElem?_eq_some_getD l i (by omega)]
  · rw [List.getElem?_eq_none (by rw [length_encoded _ hN]; omega),
      List.getElem?_eq_none (by omega)]

/-- C17: the reverse round trip. For every input `c` on which `decode` succeeds, `Encode`
of the image writes a byte sequence of the same length as `c` that equals `c` at every
offset outside the reserved region (from `7 + 6144 + 768` up to but excluding
`7 + 6144 + 768 + (AddrColorTable1 - AddrSpriteAttrs)`) and is zero at every offset inside
it; so it equals `c` whenever the reserved region of `c` is all zero. -/
theorem Encode_decode_reverse (c : ByteSlice) (img : Image) (h : decode c = .ok img) :
    ∃ bytes, Encode img = .ok bytes ∧ bytes.length = c.elems.length ∧
      (∀ i, i < 7 + 6144 + 768 ∨ 7 + 6144 + 768 + (AddrColorTable1 - AddrSpriteAttrs) ≤ i →
        bytes[i]? = c.elems[i]?) ∧
      (∀ i, 7 + 6144 + 768 ≤ i → i < 7 + 6144 + 768 + (AddrColorTable1 - AddrSpriteAttrs) →
        bytes[i]? = some 0) ∧
      ((∀ i, 7 + 6144 + 768 ≤ i → i < 7 + 6144 + 768 + (AddrColorTable1 - AddrSpriteAttrs) →
        c.elems[i]? = some 0) → bytes = c.elems) := by
  have h3 : AddrColorTable1 - AddrSpriteAttrs = 1280 := rfl
  rw [h3]
  obtain ⟨hlen, hsig⟩ := decode_ok_shape c img h
  rw [decode_closed c hlen hsig] at h
  simp only [Except.ok.injEq] at h
  subst h
  have hN : ∀ b, ((decoded c.elems).Names b).length ≤ 256 := fun b => by
    rw [length_decoded_names c.elems hlen b]
  have hout : ∀ i, i < 7 + 6144 + 768 ∨ 7 + 6144 + 768 + 1280 ≤ i →
      (encoded (decoded c.elems))[i]? = c.elems[i]? :=
    fun i hi => encoded_decoded_outside c.elems hlen hsig i (by omega)
  have hin : ∀ i, 7 + 6144 + 768 ≤ i → i < 7 + 6144 + 768 + 1280 →
      (encoded (decoded c.elems))[i]? = some 0 := by
    intro i h1 h2
    have hk := encoded_reserved (decoded c.elems) hN (i - 6919) (by omega)
    rw [show 6919 + (i - 6919) = i by omega] at hk
    exact hk
  refine ⟨encoded (decoded c.elems), Encode_closed _, ?_, hout, hin, ?_⟩
  · rw [length_encoded _ hN, hlen]
  · intro hz
    apply List.ext_getElem?
    intro i
    by_cases hi : i < 7 + 6144 + 768 ∨ 7 + 6144 + 768 + 1280 ≤ i
    · exact hout i hi
    · rw [hin i (by omega) (by omega), hz i (by omega) (by omega)]

theorem Encode_decode_reverse_witness :
    decode sampleContainer = .ok (decoded sampleContainer.elems) ∧
      ∃ bytes, Encode (decoded sampleContainer.elems) = .ok bytes ∧
        bytes.length = sampleContainer.elems.length ∧
        (∀ i, i < 7 + 6144 + 768 ∨
          7 + 6144 + 768 + (AddrColorTable1 - AddrSpriteAttrs) ≤ i →
          bytes[i]? = sampleContainer.elems[i]?) ∧
        (∀ i, 7 + 6144 + 768 ≤ i →
          i < 7 + 6144 + 768 + (AddrColorTable1 - AddrSpriteAttrs) → bytes[i]? = some 0) ∧
        ((∀ i, 7 + 6144 + 768 ≤ i →
          i < 7 + 6144 + 768 + (AddrColorTable1 - AddrSpriteAttrs) →
          sampleContainer.elems[i]? = some 0) → bytes = sampleContainer.elems) :=
  ⟨decode_sampleContainer,
    Encode_decode_reverse sampleContainer (decoded sampleContainer.elems)
      decode_sampleContainer⟩

end Sc2
